import Mathlib

/-!
Verification of the chunked authenticated stream-encryption protocol of the
sodium-wrapper repository (`FileCryptor::encrypt` / `FileCryptor::decrypt` in
`filecryptor.cpp`, together with the `StreamCryptor` constructor in
`streamcryptor.h`).

Byte streams are modelled as `List Nat`.  The libsodium primitives
(`CryptorAEAD::encrypt`/`decrypt` whose implementation file is not part of the
sources, and the `crypto_generichash` streaming digest) are external
collaborators of the core; following the spec they are modelled as ideal
(injective) primitives, built on an injective encoding of byte lists into
natural numbers.
-/

namespace SodiumWrapper

/-- The base-4 digit string of a byte list: each element contributes its
binary digit expansion (all digits < 2) followed by one separator digit 2. -/
def digitString : List Nat → List Nat
  | [] => []
  | a :: l => Nat.digits 2 a ++ 2 :: digitString l

/-- Injective encoding of a byte list as a single natural number: the digit
string is read back as one base-4 numeral. -/
def encodeList (l : List Nat) : Nat := Nat.ofDigits 4 (digitString l)

theorem digitString_ne_nil (a : Nat) (l : List Nat) : digitString (a :: l) ≠ [] := by
  simp [digitString]

theorem mem_digitString_lt_four : ∀ l, ∀ d ∈ digitString l, d < 4
  | [], d, h => by simp [digitString] at h
  | a :: l, d, h => by
    simp only [digitString, List.mem_append, List.mem_cons] at h
    rcases h with h | h | h
    · exact lt_trans (Nat.digits_lt_base (by norm_num) h) (by norm_num)
    · omega
    · exact mem_digitString_lt_four l d h

theorem digitString_getLastQ : ∀ (a : Nat) (l : List Nat),
    (digitString (a :: l)).getLast? = some 2
  | a, [] => by simp [digitString]
  | a, b :: l => by
    have ih := digitString_getLastQ b l
    simp only [digitString] at ih ⊢
    rw [List.getLast?_append, List.getLast?_cons, ih] ; simp_all

theorem digitString_getLast_ne_zero (l : List Nat) :
    ∀ h : digitString l ≠ [], (digitString l).getLast h ≠ 0 := by
  cases l with
  | nil => intro h; simp [digitString] at h
  | cons a t =>
    intro h
    have h2 := digitString_getLastQ a t
    rw [List.getLast?_eq_getLast _ h] at h2
    simp only [Option.some_inj] at h2
    omega

theorem sep_split : ∀ (xs ys u v : List Nat), (∀ d ∈ xs, d ≠ 2) → (∀ d ∈ ys, d ≠ 2) →
    xs ++ 2 :: u = ys ++ 2 :: v → xs = ys ∧ u = v
  | [], [], u, v, _, _, h => by simpa using h
  | [], b :: ys, u, v, _, hy, h => by
    simp only [List.nil_append, List.cons_append, List.cons.injEq] at h
    exact absurd h.1.symm (hy b (by simp))
  | a :: xs, [], u, v, hx, _, h => by
    simp only [List.nil_append, List.cons_append, List.cons.injEq] at h
    exact absurd h.1 (hx a (by simp))
  | a :: xs, b :: ys, u, v, hx, hy, h => by
    simp only [List.cons_append, List.cons.injEq] at h
    obtain ⟨rfl, h2⟩ := h
    have ih := sep_split xs ys u v (fun d hd => hx d (by simp [hd]))
      (fun d hd => hy d (by simp [hd])) h2
    exact ⟨by rw [ih.1], ih.2⟩

theorem digitString_injective : ∀ l₁ l₂ : List Nat, digitString l₁ = digitString l₂ → l₁ = l₂
  | [], [], _ => rfl
  | [], a :: l₂, h => absurd h.symm (digitString_ne_nil a l₂)
  | a :: l₁, [], h => absurd h (digitString_ne_nil a l₁)
  | a :: l₁, b :: l₂, h => by
    have h' : Nat.digits 2 a ++ 2 :: digitString l₁ = Nat.digits 2 b ++ 2 :: digitString l₂ := h
    have hsplit := sep_split _ _ _ _
      (fun d hd => Nat.ne_of_lt (Nat.digits_lt_base (by norm_num) hd))
      (fun d hd => Nat.ne_of_lt (Nat.digits_lt_base (by norm_num) hd)) h'
    have ha : a = b := by
      have hc := congrArg (Nat.ofDigits 2) hsplit.1
      rwa [Nat.ofDigits_digits, Nat.ofDigits_digits] at hc
    have ht := digitString_injective l₁ l₂ hsplit.2
    rw [ha, ht]

theorem encodeList_injective (l₁ l₂ : List Nat) (h : encodeList l₁ = encodeList l₂) :
    l₁ = l₂ := by
  have h1 := Nat.digits_ofDigits 4 (by norm_num) (digitString l₁)
    (mem_digitString_lt_four l₁) (digitString_getLast_ne_zero l₁)
  have h2 := Nat.digits_ofDigits 4 (by norm_num) (digitString l₂)
    (mem_digitString_lt_four l₂) (digitString_getLast_ne_zero l₂)
  have hd := congrArg (Nat.digits 4) h
  rw [encodeList, encodeList, h1, h2] at hd
  exact digitString_injective _ _ hd

/-! ### External primitives

`CryptorAEAD::encrypt`/`decrypt` are declared in `cryptoraead.h` but their
implementation file is not among the sources, and `crypto_generichash` is a
libsodium primitive.  Modelled from the spec: an AEAD primitive
`seal(header, plaintext, key, nonce) -> tag ++ ciphertext` with a tag of
`MACSIZE` bytes that authenticates header, ciphertext, key and nonce, and
`open` failing exactly when the tag does not verify; and a keyed streaming
digest of `hashsize` bytes over the folded byte sequence.  Both are ideal:
the tag and the digest determine their inputs injectively. -/

/-- `crypto_aead_chacha20poly1305_ABYTES`: width of the AEAD tag. -/
def MACSIZE : Nat := 16

/-- `Sodium::KEYSIZE_AEAD`: required AEAD key length. -/
def KEYSIZE : Nat := 32

/-- Modelled from the spec: the `MACSIZE`-byte authentication tag of one AEAD
chunk; it binds the header, the chunk body, the key and the nonce. -/
def chunkMac (header body key : List Nat) (nonce : Nat) : List Nat :=
  [encodeList header, encodeList body, encodeList key, nonce] ++
    List.replicate (MACSIZE - 4) 0

/-- Modelled from the spec: `CryptorAEAD::encrypt` (cryptoraead.cpp is not
among the sources).  Returns `tag ++ ciphertext`; output length is
`plaintext.size() + MACSIZE`. -/
def aeadEncrypt (header plaintext key : List Nat) (nonce : Nat) : List Nat :=
  chunkMac header plaintext key nonce ++ plaintext

/-- Modelled from the spec: `CryptorAEAD::decrypt` (cryptoraead.cpp is not
among the sources).  Fails (`none`, the translation of the thrown
`std::runtime_error`) whenever the embedded tag does not verify against the
header, ciphertext, key and nonce. -/
def aeadDecrypt (header c key : List Nat) (nonce : Nat) : Option (List Nat) :=
  if MACSIZE ≤ c.length then
    if c.take MACSIZE = chunkMac header (c.drop MACSIZE) key nonce then
      some (c.drop MACSIZE)
    else none
  else none

/-- Modelled from the spec: the `crypto_generichash` keyed streaming digest,
folding the byte sequence `bytes` in order into a `hsize`-byte digest. -/
def genericHash (hashkey : List Nat) (hsize : Nat) (bytes : List Nat) : List Nat :=
  ([encodeList hashkey, encodeList bytes]).take hsize ++ List.replicate (hsize - 2) 0

theorem chunkMac_length (header body key : List Nat) (nonce : Nat) :
    (chunkMac header body key nonce).length = MACSIZE := by
  simp [chunkMac, MACSIZE]

theorem aeadEncrypt_length (header plaintext key : List Nat) (nonce : Nat) :
    (aeadEncrypt header plaintext key nonce).length = MACSIZE + plaintext.length := by
  simp [aeadEncrypt, chunkMac_length]

theorem aeadDecrypt_encrypt (header plaintext key : List Nat) (nonce : Nat) :
    aeadDecrypt header (aeadEncrypt header plaintext key nonce) key nonce =
      some plaintext := by
  have hlen := chunkMac_length header plaintext key nonce
  rw [aeadDecrypt, aeadEncrypt]
  rw [List.take_left' hlen, List.drop_left' hlen]
  simp [aeadEncrypt_length, hlen]

theorem genericHash_length (hashkey : List Nat) (hsize : Nat) (bytes : List Nat)
    (h : 2 ≤ hsize) : (genericHash hashkey hsize bytes).length = hsize := by
  simp [genericHash]
  omega

theorem genericHash_injective (hashkey : List Nat) (hsize : Nat) (b₁ b₂ : List Nat)
    (h : 2 ≤ hsize) (he : genericHash hashkey hsize b₁ = genericHash hashkey hsize b₂) :
    b₁ = b₂ := by
  have h2 : ([encodeList hashkey, encodeList b₁]).take hsize =
      [encodeList hashkey, encodeList b₁] := List.take_of_length_le (by simp; omega)
  have h3 : ([encodeList hashkey, encodeList b₂]).take hsize =
      [encodeList hashkey, encodeList b₂] := List.take_of_length_le (by simp; omega)
  rw [genericHash, genericHash, h2, h3] at he
  simp only [List.cons_append, List.cons.injEq] at he
  exact encodeList_injective _ _ he.2.1

/-! ### The data model

`FileCryptor` extends `StreamCryptor` (streamcryptor.h): a secret key, the
base nonce, the empty associated-data header and the blocksize, plus the
generichash key and digest size used for the stream trailer.  The secret-key
container has the read-only / no-access memory-protection transitions of the
`Key` class (key.h is not among the sources; modelled from the spec). -/

/-- Modelled from the spec: the memory-protection state of a secret-key
container. -/
inductive ProtState where
  | readwrite
  | readonly
  | noaccess
deriving DecidableEq

/-- A secret-key container: key bytes plus a memory-protection state. -/
structure SodiumKey where
  bytes : List Nat
  prot : ProtState
deriving DecidableEq

/-- The stored configuration of a `FileCryptor` (fields of `StreamCryptor`
in streamcryptor.h plus the hash key and hash size of `FileCryptor`). -/
structure FileCryptor where
  key_ : SodiumKey
  nonce_ : Nat
  header_ : List Nat
  blocksize_ : Nat
  hashkey_ : List Nat
  hashsize_ : Nat
deriving DecidableEq

/-- Construction-time failures (`std::runtime_error` thrown from the
constructors). -/
inductive ConfigError where
  | wrongKeySize
  | wrongBlocksize
deriving DecidableEq

/-- The `StreamCryptor`/`FileCryptor` constructor: the key type enforces the
AEAD key length (modelled from the spec: key.h is not among the sources), the
constructor body checks `blocksize < 1` and then calls `key_.readonly()`
(streamcryptor.h lines 71-79).  The header is constructed empty. -/
def mkFileCryptor (key : SodiumKey) (nonce : Nat) (blocksize : Nat)
    (hashkey : List Nat) (hashsize : Nat) : Except ConfigError FileCryptor :=
  if key.bytes.length ≠ KEYSIZE then .error .wrongKeySize
  else if blocksize < 1 then .error .wrongBlocksize
  else .ok { key_ := { bytes := key.bytes, prot := .readonly },
             nonce_ := nonce, header_ := [], blocksize_ := blocksize,
             hashkey_ := hashkey, hashsize_ := hashsize }

/-- A configuration as produced by the constructors: positive blocksize, a
`crypto_generichash` digest size (at least `crypto_generichash_BYTES_MIN`,
which is 16) and a key of the AEAD key length. -/
def ValidConfig (fc : FileCryptor) : Prop :=
  0 < fc.blocksize_ ∧ 16 ≤ fc.hashsize_ ∧ fc.key_.bytes.length = KEYSIZE

instance (fc : FileCryptor) : Decidable (ValidConfig fc) := by
  unfold ValidConfig; infer_instance

/-! ### FileCryptor::encrypt (filecryptor.cpp lines 27-79)

The `while (istr.read(...))` loop reads one full `blocksize_` block at a
time; a read succeeds exactly when a full block is available.  Each full
block is sealed under the running nonce, which is then incremented.  The
loop is translated with explicit fuel (one unit per iteration) so that the
definition is structurally recursive and computable by the kernel; the
wrapper supplies fuel `pt.length + 1`, which is never exhausted when
`blocksize_ ≥ 1`. -/

/-- The full-block encryption loop.  Returns the sealed chunks, the final
value of the running nonce, and the unread remainder (`gcount` bytes). -/
def encLoopF (fc : FileCryptor) : Nat → Nat → List Nat → List (List Nat) × Nat × List Nat
  | 0, nonce, pt => ([], nonce, pt)
  | fuel + 1, nonce, pt =>
    if fc.blocksize_ ≤ pt.length then
      let c := aeadEncrypt fc.header_ (pt.take fc.blocksize_) fc.key_.bytes nonce
      let r := encLoopF fc fuel (nonce + 1) (pt.drop fc.blocksize_)
      (c :: r.1, r.2)
    else ([], nonce, pt)

/-- The full-block loop of `FileCryptor::encrypt`, seeded with the running
nonce copied from the stored base nonce. -/
def FileCryptor.encLoop (fc : FileCryptor) (nonce : Nat) (pt : List Nat) :
    List (List Nat) × Nat × List Nat :=
  encLoopF fc (pt.length + 1) nonce pt

/-- All chunks written by `FileCryptor::encrypt`: the full chunks followed by
one final partial chunk when the last `gcount` was nonzero (`s != 0`),
sealed under the current, not further incremented running nonce. -/
def FileCryptor.encChunks (fc : FileCryptor) (pt : List Nat) : List (List Nat) :=
  if (fc.encLoop fc.nonce_ pt).2.2.length ≠ 0 then
    (fc.encLoop fc.nonce_ pt).1 ++
      [aeadEncrypt fc.header_ (fc.encLoop fc.nonce_ pt).2.2 fc.key_.bytes
        (fc.encLoop fc.nonce_ pt).2.1]
  else (fc.encLoop fc.nonce_ pt).1

/-- `FileCryptor::encrypt`: the ciphertext stream written to `ostr` — the
chunks in order, followed by the finalized digest over every written chunk. -/
def FileCryptor.encrypt (fc : FileCryptor) (pt : List Nat) : List Nat :=
  (fc.encChunks pt).flatten ++
    genericHash fc.hashkey_ fc.hashsize_ (fc.encChunks pt).flatten

/-- `FileCryptor::encrypt` together with the instance state after the call:
the method mutates no member (the running nonce and the digest state are
locals), so the post-state is the unchanged `fc`. -/
def FileCryptor.encryptS (fc : FileCryptor) (pt : List Nat) :
    List Nat × FileCryptor :=
  (fc.encrypt pt, fc)

/-! ### FileCryptor::decrypt (filecryptor.cpp lines 81-189)

The input is a seekable stream: first the trailing `hashsize_` bytes are
read as the saved digest (`seekg(-hashsize_, end)` fails when the stream is
shorter than the digest).  Then the stream is re-read from the beginning in
chunks of `MACSIZE + blocksize_` bytes.  A successful read whose end
position lands past the digest start has the overlapping digest bytes
dropped (`resize`) and sets `in_hash`, ending the loop after this chunk.
Each chunk is opened under the running nonce, written out, and folded into
the recomputed digest.  After the loop, if it ended on a short read rather
than on `in_hash`, the `gcount` leftover is trimmed: `tellg()` returns -1
after the failed read, so the code drops the last `hashsize_` bytes if more
than `hashsize_` remain and otherwise clears the buffer (no final chunk).
Finally the recomputed digest is compared against the saved one.

The loop is again translated with fuel (one unit per iteration); the wrapper
supplies fuel `cs.length + 1`, never exhausted since every iteration
advances the read position by `MACSIZE + blocksize_ ≥ 16`. -/

/-- Decryption failures (`std::runtime_error` thrown from
`FileCryptor::decrypt`): the end-seek for the saved digest failing, a chunk
whose tag does not verify (thrown inside `CryptorAEAD::decrypt`), and the
final digest comparison failing. -/
inductive DecErr where
  | seekFailed
  | authFailure
  | hashMismatch
deriving DecidableEq

/-- State of the chunk-read loop of `FileCryptor::decrypt` when it ends
without throwing: read position, running nonce, plaintext written so far,
chunk bytes folded into the digest so far, and the `in_hash` flag. -/
structure LoopOut where
  pos : Nat
  nonce : Nat
  out : List Nat
  fed : List Nat
  inHash : Bool
deriving DecidableEq

/-- The chunk-read loop of `FileCryptor::decrypt`, with fuel.  A read
succeeds exactly when `MACSIZE + blocksize_` bytes are available at `pos`;
`current` is `tellg()` after the read. -/
def decLoopF (fc : FileCryptor) (cs : List Nat) (hash_pos : Nat) :
    Nat → Nat → Nat → List Nat → List Nat → Except DecErr LoopOut
  | 0, pos, nonce, out, fed => .ok ⟨pos, nonce, out, fed, false⟩
  | fuel + 1, pos, nonce, out, fed =>
    if pos + (MACSIZE + fc.blocksize_) ≤ cs.length then
      let current := pos + (MACSIZE + fc.blocksize_)
      let chunkFull := (cs.drop pos).take (MACSIZE + fc.blocksize_)
      if hash_pos < current then
        -- the read crossed into the trailer region: drop the excess, set in_hash
        let chunk := chunkFull.take (MACSIZE + fc.blocksize_ - (current - hash_pos))
        match aeadDecrypt fc.header_ chunk fc.key_.bytes nonce with
        | none => .error .authFailure
        | some p => .ok ⟨current, nonce + 1, out ++ p, fed ++ chunk, true⟩
      else
        match aeadDecrypt fc.header_ chunkFull fc.key_.bytes nonce with
        | none => .error .authFailure
        | some p => decLoopF fc cs hash_pos fuel current (nonce + 1) (out ++ p) (fed ++ chunkFull)
    else .ok ⟨pos, nonce, out, fed, false⟩

/-- The chunk-read loop of `FileCryptor::decrypt`, seeded at position 0 with
a running nonce copied from the stored base nonce. -/
def FileCryptor.decLoop (fc : FileCryptor) (cs : List Nat) (hash_pos : Nat) :
    Except DecErr LoopOut :=
  decLoopF fc cs hash_pos (cs.length + 1) 0 fc.nonce_ [] []

/-- The final digest comparison of `FileCryptor::decrypt`: recompute the
digest over the folded bytes and compare byte-for-byte with the saved
trailer digest; a mismatch throws. -/
def finishDec (fc : FileCryptor) (hashSaved out fed : List Nat) :
    Except DecErr (List Nat) :=
  if genericHash fc.hashkey_ fc.hashsize_ fed = hashSaved then .ok out
  else .error .hashMismatch

/-- Run trace of `FileCryptor::decrypt`: the result, whether the chunk loop
ended via `in_hash`, the final short-read chunk that was decrypted (if any),
and the bytes folded into the recomputed digest. -/
instance {ε α : Type} [DecidableEq ε] [DecidableEq α] : DecidableEq (Except ε α) :=
  fun x y =>
  match x, y with
  | .ok a, .ok b => if h : a = b then .isTrue (by rw [h]) else .isFalse (by simp [h])
  | .error a, .error b => if h : a = b then .isTrue (by rw [h]) else .isFalse (by simp [h])
  | .ok _, .error _ => .isFalse (by simp)
  | .error _, .ok _ => .isFalse (by simp)

structure DecTrace where
  result : Except DecErr (List Nat)
  inHash : Bool
  finalChunk : Option (List Nat)
  fed : List Nat

/-- The code of `FileCryptor::decrypt` after the chunk-read loop ended
without throwing: if the loop ended via `in_hash` the post-loop block is
skipped; otherwise the `gcount` leftover of the short final read is trimmed
(`tellg()` is -1 after the failed read, so the `current_pos > hash_pos`
branch is unreachable): the last `hashsize_` bytes are dropped when more
than `hashsize_` bytes remain, else the buffer is cleared and no final
chunk is decrypted.  Finally the digest comparison runs. -/
def decFinish (fc : FileCryptor) (cs : List Nat) (lo : LoopOut) : DecTrace :=
  if lo.inHash then
    ⟨finishDec fc (cs.drop (cs.length - fc.hashsize_)) lo.out lo.fed, true, none, lo.fed⟩
  else
    if cs.length - lo.pos ≠ 0 then
      if fc.hashsize_ < cs.length - lo.pos then
        match aeadDecrypt fc.header_
            ((cs.drop lo.pos).take (cs.length - lo.pos - fc.hashsize_))
            fc.key_.bytes lo.nonce with
        | none => ⟨.error .authFailure, false,
            some ((cs.drop lo.pos).take (cs.length - lo.pos - fc.hashsize_)), lo.fed⟩
        | some p =>
            ⟨finishDec fc (cs.drop (cs.length - fc.hashsize_)) (lo.out ++ p)
                (lo.fed ++ (cs.drop lo.pos).take (cs.length - lo.pos - fc.hashsize_)),
              false,
              some ((cs.drop lo.pos).take (cs.length - lo.pos - fc.hashsize_)),
              lo.fed ++ (cs.drop lo.pos).take (cs.length - lo.pos - fc.hashsize_)⟩
      else ⟨finishDec fc (cs.drop (cs.length - fc.hashsize_)) lo.out lo.fed,
        false, none, lo.fed⟩
    else ⟨finishDec fc (cs.drop (cs.length - fc.hashsize_)) lo.out lo.fed,
      false, none, lo.fed⟩

/-- `FileCryptor::decrypt`, instrumented with the trace fields. -/
def FileCryptor.decryptT (fc : FileCryptor) (cs : List Nat) : DecTrace :=
  if cs.length < fc.hashsize_ then
    -- seekg(-hashsize_, end) fails: "cannot seek to the end for hash"
    ⟨.error .seekFailed, false, none, []⟩
  else
    match fc.decLoop cs (cs.length - fc.hashsize_) with
    | .error e => ⟨.error e, false, none, []⟩
    | .ok lo => decFinish fc cs lo

/-- `FileCryptor::decrypt`: the observable result (plaintext written to
`ostr`, or the thrown error). -/
def FileCryptor.decrypt (fc : FileCryptor) (cs : List Nat) :
    Except DecErr (List Nat) :=
  (fc.decryptT cs).result

/-- `FileCryptor::decrypt` together with the instance state after the call:
the method mutates no member (the running nonce and digest state are
locals), so the post-state is the unchanged `fc`. -/
def FileCryptor.decryptS (fc : FileCryptor) (cs : List Nat) :
    Except DecErr (List Nat) × FileCryptor :=
  (fc.decrypt cs, fc)

/-! ### Structure of the encryption loop -/

theorem encLoopF_spec (fc : FileCryptor) (hbs : 0 < fc.blocksize_) :
    ∀ fuel pt nonce, List.length pt < fuel →
      (encLoopF fc fuel nonce pt).2.1 = nonce + pt.length / fc.blocksize_ ∧
      (encLoopF fc fuel nonce pt).2.2 =
        pt.drop (fc.blocksize_ * (pt.length / fc.blocksize_)) ∧
      (encLoopF fc fuel nonce pt).1.length = pt.length / fc.blocksize_ ∧
      (encLoopF fc fuel nonce pt).1.flatten.length =
        (pt.length / fc.blocksize_) * (MACSIZE + fc.blocksize_) := by
  intro fuel
  induction fuel with
  | zero => intro pt nonce h; omega
  | succ fuel ih =>
    intro pt nonce h
    by_cases hle : fc.blocksize_ ≤ pt.length
    · have hdlen : (pt.drop fc.blocksize_).length = pt.length - fc.blocksize_ :=
        List.length_drop _ _
      have hdl : (pt.drop fc.blocksize_).length < fuel := by omega
      obtain ⟨ih1, ih2, ih3, ih4⟩ := ih (pt.drop fc.blocksize_) (nonce + 1) hdl
      have hdiv : pt.length / fc.blocksize_ = (pt.length - fc.blocksize_) / fc.blocksize_ + 1 :=
        Nat.div_eq_sub_div hbs hle
      rw [hdlen] at ih1 ih2 ih3 ih4
      simp only [encLoopF, if_pos hle]
      refine ⟨?_, ?_, ?_, ?_⟩
      · rw [ih1, hdiv]; omega
      · rw [ih2, List.drop_drop, hdiv]
        congr 1
        ring
      · simp only [List.length_cons, ih3, hdiv]
      · simp only [List.flatten_cons, List.length_append, ih4,
          aeadEncrypt_length, List.length_take, hdiv]
        have hmin : min fc.blocksize_ pt.length = fc.blocksize_ := by omega
        rw [hmin]; ring
    · have hdiv : pt.length / fc.blocksize_ = 0 := Nat.div_eq_of_lt (by omega)
      simp [encLoopF, if_neg hle, hdiv]

theorem encLoopF_getD (fc : FileCryptor) (hbs : 0 < fc.blocksize_) :
    ∀ fuel pt nonce i, List.length pt < fuel → i < pt.length / fc.blocksize_ →
      (encLoopF fc fuel nonce pt).1.getD i [] =
        aeadEncrypt fc.header_ ((pt.drop (fc.blocksize_ * i)).take fc.blocksize_)
          fc.key_.bytes (nonce + i) := by
  intro fuel
  induction fuel with
  | zero => intro pt nonce i h; omega
  | succ fuel ih =>
    intro pt nonce i h hi
    by_cases hle : fc.blocksize_ ≤ pt.length
    · simp only [encLoopF, if_pos hle]
      cases i with
      | zero => simp
      | succ i =>
        have hdlen : (pt.drop fc.blocksize_).length = pt.length - fc.blocksize_ :=
          List.length_drop _ _
        have hdl : (pt.drop fc.blocksize_).length < fuel := by omega
        have hdiv : pt.length / fc.blocksize_ =
            (pt.length - fc.blocksize_) / fc.blocksize_ + 1 :=
          Nat.div_eq_sub_div hbs hle
        have hi' : i < (pt.drop fc.blocksize_).length / fc.blocksize_ := by
          rw [hdlen]; omega
        have hrec := ih (pt.drop fc.blocksize_) (nonce + 1) i hdl hi'
        rw [List.getD_cons_succ, hrec, List.drop_drop]
        congr 1 <;> ring_nf
    · have hdiv : pt.length / fc.blocksize_ = 0 := Nat.div_eq_of_lt (by omega)
      omega

theorem encLoopF_mem_length (fc : FileCryptor) :
    ∀ fuel pt nonce c, c ∈ (encLoopF fc fuel nonce pt).1 →
      c.length = MACSIZE + fc.blocksize_ := by
  intro fuel
  induction fuel with
  | zero => intro pt nonce c h; simp [encLoopF] at h
  | succ fuel ih =>
    intro pt nonce c h
    by_cases hle : fc.blocksize_ ≤ pt.length
    · simp only [encLoopF, if_pos hle, List.mem_cons] at h
      rcases h with rfl | h
      · rw [aeadEncrypt_length, List.length_take]
        omega
      · exact ih _ _ _ h
    · simp [encLoopF, if_neg hle] at h

/-- The remainder after the full-block loop has length `pt.length % blocksize`. -/
theorem encLoop_rest_length (fc : FileCryptor) (hbs : 0 < fc.blocksize_) (pt : List Nat) :
    (fc.encLoop fc.nonce_ pt).2.2.length = pt.length % fc.blocksize_ := by
  obtain ⟨_, h2, _, _⟩ := encLoopF_spec fc hbs (pt.length + 1) pt fc.nonce_ (by omega)
  rw [FileCryptor.encLoop, h2, List.length_drop]
  have := Nat.div_add_mod pt.length fc.blocksize_
  omega

/-- The chunk list written by encrypt, decomposed: the full chunks of the
loop, followed by the final partial chunk exactly when the plaintext length
is not a multiple of the blocksize. -/
theorem encChunks_eq (fc : FileCryptor) (hbs : 0 < fc.blocksize_) (pt : List Nat) :
    fc.encChunks pt = (fc.encLoop fc.nonce_ pt).1 ++
      (if pt.length % fc.blocksize_ = 0 then []
       else [aeadEncrypt fc.header_ (pt.drop (fc.blocksize_ * (pt.length / fc.blocksize_)))
              fc.key_.bytes (fc.nonce_ + pt.length / fc.blocksize_)]) := by
  obtain ⟨h1, h2, _, _⟩ := encLoopF_spec fc hbs (pt.length + 1) pt fc.nonce_ (by omega)
  have hrl := encLoop_rest_length fc hbs pt
  simp only [FileCryptor.encChunks, hrl]
  by_cases hr : pt.length % fc.blocksize_ = 0
  · simp [hr]
  · rw [if_pos hr, if_neg hr]
    simp only [FileCryptor.encLoop] at h1 h2 ⊢
    rw [h1, h2]

theorem encLoop_length (fc : FileCryptor) (hbs : 0 < fc.blocksize_) (pt : List Nat) :
    (fc.encLoop fc.nonce_ pt).1.length = pt.length / fc.blocksize_ := by
  obtain ⟨_, _, h3, _⟩ := encLoopF_spec fc hbs (pt.length + 1) pt fc.nonce_ (by omega)
  exact h3

theorem encLoop_flatten_length (fc : FileCryptor) (hbs : 0 < fc.blocksize_) (pt : List Nat) :
    (fc.encLoop fc.nonce_ pt).1.flatten.length =
      (pt.length / fc.blocksize_) * (MACSIZE + fc.blocksize_) := by
  obtain ⟨_, _, _, h4⟩ := encLoopF_spec fc hbs (pt.length + 1) pt fc.nonce_ (by omega)
  exact h4

theorem encChunks_length (fc : FileCryptor) (hbs : 0 < fc.blocksize_) (pt : List Nat) :
    (fc.encChunks pt).length = if pt.length % fc.blocksize_ = 0
      then pt.length / fc.blocksize_ else pt.length / fc.blocksize_ + 1 := by
  have h3 := encLoop_length fc hbs pt
  rw [encChunks_eq fc hbs pt, List.length_append]
  by_cases hr : pt.length % fc.blocksize_ = 0 <;> simp [hr, h3]

/-- Every chunk written by encrypt, including the final one, carries the
`i`-th nonce value: base nonce plus `i` increments. -/
theorem encChunks_getD (fc : FileCryptor) (hbs : 0 < fc.blocksize_) (pt : List Nat)
    (i : Nat) (hi : i < (fc.encChunks pt).length) :
    (fc.encChunks pt).getD i [] =
      aeadEncrypt fc.header_ ((pt.drop (fc.blocksize_ * i)).take fc.blocksize_)
        fc.key_.bytes (fc.nonce_ + i) := by
  have h3 := encLoop_length fc hbs pt
  rw [encChunks_length fc hbs pt] at hi
  rw [encChunks_eq fc hbs pt]
  by_cases hik : i < pt.length / fc.blocksize_
  · rw [List.getD_append _ _ _ _ (by omega)]
    exact encLoopF_getD fc hbs (pt.length + 1) pt fc.nonce_ i (by omega) hik
  · have hr : ¬ pt.length % fc.blocksize_ = 0 := by
      by_contra hr0
      rw [if_pos hr0] at hi
      omega
    have hieq : i = pt.length / fc.blocksize_ := by
      rw [if_neg hr] at hi
      omega
    subst hieq
    rw [if_neg hr, List.getD_append_right _ _ _ _ (by omega), h3, Nat.sub_self]
    simp only [List.getD_cons_zero]
    congr 1
    have hlen : (pt.drop (fc.blocksize_ * (pt.length / fc.blocksize_))).length ≤
        fc.blocksize_ := by
      rw [List.length_drop]
      have := Nat.div_add_mod pt.length fc.blocksize_
      have := Nat.mod_lt pt.length hbs
      omega
    rw [List.take_of_length_le hlen]

theorem encChunks_mem_length (fc : FileCryptor) (hbs : 0 < fc.blocksize_) (pt : List Nat) :
    ∀ c ∈ fc.encChunks pt, MACSIZE + 1 ≤ c.length ∧ c.length ≤ MACSIZE + fc.blocksize_ := by
  intro c hc
  rw [encChunks_eq fc hbs pt, List.mem_append] at hc
  rcases hc with hc | hc
  · rw [encLoopF_mem_length fc _ _ _ _ hc]
    omega
  · by_cases hr : pt.length % fc.blocksize_ = 0
    · rw [if_pos hr] at hc; simp at hc
    · rw [if_neg hr] at hc
      simp only [List.mem_singleton] at hc
      subst hc
      rw [aeadEncrypt_length, List.length_drop]
      have := Nat.div_add_mod pt.length fc.blocksize_
      have := Nat.mod_lt pt.length hbs
      omega

theorem encChunks_flatten_length (fc : FileCryptor) (hbs : 0 < fc.blocksize_) (pt : List Nat) :
    (fc.encChunks pt).flatten.length = pt.length + MACSIZE * (fc.encChunks pt).length := by
  have h4 := encLoop_flatten_length fc hbs pt
  rw [encChunks_length fc hbs pt, encChunks_eq fc hbs pt]
  have hmod := Nat.div_add_mod pt.length fc.blocksize_
  have hlt := Nat.mod_lt pt.length hbs
  by_cases hr : pt.length % fc.blocksize_ = 0
  · simp only [if_pos hr, List.append_nil]
    rw [h4]
    have hd : fc.blocksize_ * (pt.length / fc.blocksize_) +
        MACSIZE * (pt.length / fc.blocksize_) =
        (pt.length / fc.blocksize_) * (MACSIZE + fc.blocksize_) := by ring
    omega
  · simp only [if_neg hr]
    rw [List.flatten_append, List.length_append, h4]
    simp only [List.flatten_cons, List.flatten_nil, List.append_nil,
      aeadEncrypt_length, List.length_drop]
    have hd : fc.blocksize_ * (pt.length / fc.blocksize_) +
        MACSIZE * (pt.length / fc.blocksize_) =
        (pt.length / fc.blocksize_) * (MACSIZE + fc.blocksize_) := by ring
    have hm : MACSIZE * (pt.length / fc.blocksize_ + 1) =
        MACSIZE * (pt.length / fc.blocksize_) + MACSIZE := by ring
    omega

/-! ### Structure of the decryption loop -/

/-- The fuel of the decryption loop is irrelevant once it exceeds the number
of remaining bytes (each iteration advances the position by at least
`MACSIZE`). -/
theorem decLoopF_fuel (fc : FileCryptor) (cs : List Nat) (hp : Nat) :
    ∀ f₁ f₂ pos nonce out fed, cs.length - pos < f₁ → cs.length - pos < f₂ →
      decLoopF fc cs hp f₁ pos nonce out fed = decLoopF fc cs hp f₂ pos nonce out fed := by
  intro f₁
  induction f₁ with
  | zero => intro f₂ pos nonce out fed h1 h2; omega
  | succ f₁ ih =>
    intro f₂ pos nonce out fed h1 h2
    cases f₂ with
    | zero => omega
    | succ f₂ =>
      simp only [decLoopF]
      by_cases hread : pos + (MACSIZE + fc.blocksize_) ≤ cs.length
      · simp only [if_pos hread]
        by_cases hcross : hp < pos + (MACSIZE + fc.blocksize_)
        · simp only [if_pos hcross]
        · simp only [if_neg hcross]
          cases hdec : aeadDecrypt fc.header_
              ((cs.drop pos).take (MACSIZE + fc.blocksize_)) fc.key_.bytes nonce with
          | none => rfl
          | some p =>
            have hM : MACSIZE = 16 := rfl
            exact ih f₂ _ _ _ _ (by omega) (by omega)
      · simp only [if_neg hread]

/-- When fewer than `MACSIZE + blocksize_` bytes remain, the read fails and
the loop stops with `in_hash` unset. -/
theorem decLoopF_stop (fc : FileCryptor) (cs : List Nat) (hp fuel pos nonce : Nat)
    (out fed : List Nat) (h : ¬ pos + (MACSIZE + fc.blocksize_) ≤ cs.length) :
    decLoopF fc cs hp fuel pos nonce out fed = .ok ⟨pos, nonce, out, fed, false⟩ := by
  cases fuel with
  | zero => rfl
  | succ fuel => simp [decLoopF, h]

/-- One successful, non-crossing iteration of the decryption loop. -/
theorem decLoopF_step (fc : FileCryptor) (cs : List Nat) (hp fuel pos nonce : Nat)
    (out fed p : List Nat)
    (hread : pos + (MACSIZE + fc.blocksize_) ≤ cs.length)
    (hnocross : ¬ hp < pos + (MACSIZE + fc.blocksize_))
    (hdec : aeadDecrypt fc.header_ ((cs.drop pos).take (MACSIZE + fc.blocksize_))
      fc.key_.bytes nonce = some p) :
    decLoopF fc cs hp (fuel + 1) pos nonce out fed =
      decLoopF fc cs hp fuel (pos + (MACSIZE + fc.blocksize_)) (nonce + 1) (out ++ p)
        (fed ++ (cs.drop pos).take (MACSIZE + fc.blocksize_)) := by
  simp only [decLoopF, if_pos hread, if_neg hnocross, hdec]

/-- Consuming a prefix of full, correctly sealed chunks: as long as every
read ends at or before the digest start, the loop opens each chunk under the
successive nonces, accumulates plaintext and digest bytes, and continues
from the position after the chunks. -/
theorem decLoopF_chunks (fc : FileCryptor) (cs : List Nat) (hp : Nat)
    (hple : hp ≤ cs.length) :
    ∀ (chunks blocks : List (List Nat)) (fuel pos nonce : Nat) (out fed tail : List Nat),
      chunks.length = blocks.length →
      (∀ i, i < chunks.length →
        aeadDecrypt fc.header_ (chunks.getD i []) fc.key_.bytes (nonce + i) =
          some (blocks.getD i [])) →
      (∀ c ∈ chunks, c.length = MACSIZE + fc.blocksize_) →
      cs.drop pos = chunks.flatten ++ tail →
      pos + chunks.flatten.length ≤ hp →
      cs.length - pos < fuel →
      decLoopF fc cs hp fuel pos nonce out fed =
        decLoopF fc cs hp (cs.length - (pos + chunks.flatten.length) + 1)
          (pos + chunks.flatten.length) (nonce + chunks.length)
          (out ++ blocks.flatten) (fed ++ chunks.flatten) := by
  intro chunks
  induction chunks with
  | nil =>
    intro blocks fuel pos nonce out fed tail hlen hdec hclen hdrop hpos hfuel
    simp only [List.flatten_nil, List.length_nil, List.append_nil, Nat.add_zero]
    have hb : blocks = [] := List.eq_nil_of_length_eq_zero hlen.symm
    subst hb
    simp only [List.flatten_nil, List.append_nil]
    exact decLoopF_fuel fc cs hp fuel _ pos nonce out fed hfuel (by omega)
  | cons c ct ih =>
    intro blocks fuel pos nonce out fed tail hlen hdec hclen hdrop hpos hfuel
    cases blocks with
    | nil => simp at hlen
    | cons b bt =>
      have hM : MACSIZE = 16 := rfl
      have hcl : c.length = MACSIZE + fc.blocksize_ := hclen c (by simp)
      have hflat : ((c :: ct).flatten).length = c.length + ct.flatten.length := by simp
      have hread : pos + (MACSIZE + fc.blocksize_) ≤ cs.length := by omega
      have hnocross : ¬ hp < pos + (MACSIZE + fc.blocksize_) := by omega
      have hchunk : (cs.drop pos).take (MACSIZE + fc.blocksize_) = c := by
        rw [hdrop, List.flatten_cons, List.append_assoc, List.take_left' hcl]
      have hdec0 := hdec 0 (by simp)
      simp only [List.getD_cons_zero, Nat.add_zero] at hdec0
      cases fuel with
      | zero => omega
      | succ fuel =>
        rw [decLoopF_step fc cs hp fuel pos nonce out fed b hread hnocross
          (by rw [hchunk]; exact hdec0), hchunk]
        have hdrop' : cs.drop (pos + (MACSIZE + fc.blocksize_)) = ct.flatten ++ tail := by
          have hdd : cs.drop (pos + (MACSIZE + fc.blocksize_)) =
              (cs.drop pos).drop (MACSIZE + fc.blocksize_) := by
            rw [List.drop_drop]
          rw [hdd, hdrop, List.flatten_cons, List.append_assoc, List.drop_left' hcl]
        have ihh := ih bt fuel (pos + (MACSIZE + fc.blocksize_)) (nonce + 1)
          (out ++ b) (fed ++ c) tail
          (by simpa using hlen)
          (by
            intro i hi
            have hstep := hdec (i + 1) (by simp; omega)
            simp only [List.getD_cons_succ] at hstep
            have hn : nonce + (i + 1) = nonce + 1 + i := by omega
            rwa [hn] at hstep)
          (fun c' hc' => hclen c' (by simp [hc']))
          hdrop'
          (by omega)
          (by omega)
        rw [ihh]
        have e1 : pos + (MACSIZE + fc.blocksize_) + ct.flatten.length =
            pos + (c :: ct).flatten.length := by
          rw [hflat, hcl]; omega
        have e2 : nonce + 1 + ct.length = nonce + (c :: ct).length := by
          simp only [List.length_cons]; omega
        rw [← e1, ← e2]
        simp only [List.flatten_cons, ← List.append_assoc]

/-- The only error the chunk-read loop can throw is an authentication
failure. -/
theorem decLoopF_error (fc : FileCryptor) (cs : List Nat) (hp : Nat) :
    ∀ fuel pos nonce out fed e,
      decLoopF fc cs hp fuel pos nonce out fed = .error e → e = .authFailure := by
  intro fuel
  induction fuel with
  | zero => intro pos nonce out fed e h; simp [decLoopF] at h
  | succ fuel ih =>
    intro pos nonce out fed e h
    by_cases hread : pos + (MACSIZE + fc.blocksize_) ≤ cs.length
    · simp only [decLoopF, if_pos hread] at h
      by_cases hcross : hp < pos + (MACSIZE + fc.blocksize_)
      · rw [if_pos hcross] at h
        cases hdec : aeadDecrypt fc.header_
            (((cs.drop pos).take (MACSIZE + fc.blocksize_)).take
              (MACSIZE + fc.blocksize_ - (pos + (MACSIZE + fc.blocksize_) - hp)))
            fc.key_.bytes nonce with
        | none => rw [hdec] at h; exact (Except.error.injEq _ _).mp h.symm |>.symm ▸ rfl
        | some p => rw [hdec] at h; simp at h
      · rw [if_neg hcross] at h
        cases hdec : aeadDecrypt fc.header_
            ((cs.drop pos).take (MACSIZE + fc.blocksize_)) fc.key_.bytes nonce with
        | none => rw [hdec] at h; exact (Except.error.injEq _ _).mp h.symm |>.symm ▸ rfl
        | some p => rw [hdec] at h; exact ih _ _ _ _ _ h
    · simp [decLoopF, if_neg hread] at h

/-- Invariant of the chunk-read loop: on a normal exit, the bytes folded into
the digest are exactly the stream bytes from the starting position up to the
stop position, and the loop never reads past the digest start: an `in_hash`
exit has folded exactly the bytes up to the digest start, and a short-read
exit stops at or before it. -/
theorem decLoopF_fed (fc : FileCryptor) (cs : List Nat) (hp : Nat) :
    ∀ fuel pos nonce out fed lo,
      cs.length - pos < fuel → pos ≤ hp →
      decLoopF fc cs hp fuel pos nonce out fed = .ok lo →
      (lo.inHash = true → lo.fed = fed ++ (cs.drop pos).take (hp - pos)) ∧
      (lo.inHash = false →
        lo.fed = fed ++ (cs.drop pos).take (lo.pos - pos) ∧ pos ≤ lo.pos ∧
        lo.pos ≤ hp ∧ cs.length < lo.pos + (MACSIZE + fc.blocksize_)) := by
  intro fuel
  induction fuel with
  | zero => intro pos nonce out fed lo h1 h2 h3; omega
  | succ fuel ih =>
    intro pos nonce out fed lo hfuel hpos hres
    have hM : MACSIZE = 16 := rfl
    by_cases hread : pos + (MACSIZE + fc.blocksize_) ≤ cs.length
    · simp only [decLoopF, if_pos hread] at hres
      by_cases hcross : hp < pos + (MACSIZE + fc.blocksize_)
      · rw [if_pos hcross] at hres
        cases hdec : aeadDecrypt fc.header_
            (((cs.drop pos).take (MACSIZE + fc.blocksize_)).take
              (MACSIZE + fc.blocksize_ - (pos + (MACSIZE + fc.blocksize_) - hp)))
            fc.key_.bytes nonce with
        | none => rw [hdec] at hres; simp at hres
        | some p =>
          rw [hdec] at hres
          simp only [Except.ok.injEq] at hres
          subst hres
          constructor
          · intro _
            simp only
            have harg : MACSIZE + fc.blocksize_ -
                (pos + (MACSIZE + fc.blocksize_) - hp) = hp - pos := by omega
            rw [harg, List.take_take]
            have hmin : min (hp - pos) (MACSIZE + fc.blocksize_) = hp - pos := by omega
            rw [hmin]
          · intro hfalse
            simp at hfalse
      · rw [if_neg hcross] at hres
        cases hdec : aeadDecrypt fc.header_
            ((cs.drop pos).take (MACSIZE + fc.blocksize_)) fc.key_.bytes nonce with
        | none => rw [hdec] at hres; simp at hres
        | some p =>
          rw [hdec] at hres
          have hrec := ih (pos + (MACSIZE + fc.blocksize_)) (nonce + 1) (out ++ p)
            (fed ++ (cs.drop pos).take (MACSIZE + fc.blocksize_)) lo
            (by omega) (by omega) hres
          have hjoin : ∀ k, (MACSIZE + fc.blocksize_) ≤ k →
              (fed ++ (cs.drop pos).take (MACSIZE + fc.blocksize_)) ++
                (cs.drop (pos + (MACSIZE + fc.blocksize_))).take
                  (k - (MACSIZE + fc.blocksize_)) =
              fed ++ (cs.drop pos).take k := by
            intro k hk
            rw [List.append_assoc]
            congr 1
            have hdd : cs.drop (pos + (MACSIZE + fc.blocksize_)) =
                (cs.drop pos).drop (MACSIZE + fc.blocksize_) := by
              rw [List.drop_drop]
            rw [hdd, ← List.take_add ((cs.drop pos)) (MACSIZE + fc.blocksize_)
              (k - (MACSIZE + fc.blocksize_))]
            congr 1
            omega
          constructor
          · intro hih
            obtain ⟨h1, _⟩ := hrec
            rw [h1 hih]
            have harg : hp - (pos + (MACSIZE + fc.blocksize_)) =
                (hp - pos) - (MACSIZE + fc.blocksize_) := by omega
            rw [harg]
            exact hjoin (hp - pos) (by omega)
          · intro hih
            obtain ⟨_, h2⟩ := hrec
            obtain ⟨hf, hle1, hle2, hle3⟩ := h2 hih
            refine ⟨?_, by omega, hle2, hle3⟩
            rw [hf]
            have harg : lo.pos - (pos + (MACSIZE + fc.blocksize_)) =
                (lo.pos - pos) - (MACSIZE + fc.blocksize_) := by omega
            rw [harg]
            exact hjoin (lo.pos - pos) (by omega)
    · rw [decLoopF_stop fc cs hp (fuel + 1) pos nonce out fed hread] at hres
      simp only [Except.ok.injEq] at hres
      subst hres
      refine ⟨by intro h; simp at h, ?_⟩
      intro _
      dsimp only
      exact ⟨by simp, by omega, hpos, by omega⟩

/-- The plaintext blocks by index, as consumed by the encryption loop. -/
def ptBlocks (bs : Nat) (pt : List Nat) (k : Nat) : List (List Nat) :=
  (List.range k).map (fun i => (pt.drop (bs * i)).take bs)

theorem ptBlocks_getD (bs : Nat) (pt : List Nat) (k i : Nat) (h : i < k) :
    (ptBlocks bs pt k).getD i [] = (pt.drop (bs * i)).take bs := by
  rw [ptBlocks, List.getD_eq_getElem?_getD, List.getElem?_map, List.getElem?_range h]
  rfl

theorem ptBlocks_flatten (bs : Nat) (pt : List Nat) :
    ∀ k, (ptBlocks bs pt k).flatten = pt.take (bs * k) := by
  intro k
  induction k with
  | zero => simp [ptBlocks]
  | succ k ih =>
    rw [ptBlocks, List.range_succ, List.map_append, List.flatten_append]
    rw [ptBlocks] at ih
    rw [ih]
    simp only [List.map_cons, List.map_nil, List.flatten_cons, List.flatten_nil,
      List.append_nil]
    have hmul : bs * (k + 1) = bs * k + bs := by ring
    rw [hmul, List.take_add]

/-- The crossing iteration of the decryption loop: a successful read whose
end position lands past the digest start trims the trailer overlap, opens
the trimmed chunk, and stops with `in_hash` set. -/
theorem decLoopF_cross (fc : FileCryptor) (cs : List Nat) (hp fuel pos nonce : Nat)
    (out fed p : List Nat)
    (hread : pos + (MACSIZE + fc.blocksize_) ≤ cs.length)
    (hcross : hp < pos + (MACSIZE + fc.blocksize_))
    (hdec : aeadDecrypt fc.header_
      (((cs.drop pos).take (MACSIZE + fc.blocksize_)).take
        (MACSIZE + fc.blocksize_ - (pos + (MACSIZE + fc.blocksize_) - hp)))
      fc.key_.bytes nonce = some p) :
    decLoopF fc cs hp (fuel + 1) pos nonce out fed =
      .ok ⟨pos + (MACSIZE + fc.blocksize_), nonce + 1, out ++ p,
        fed ++ ((cs.drop pos).take (MACSIZE + fc.blocksize_)).take
          (MACSIZE + fc.blocksize_ - (pos + (MACSIZE + fc.blocksize_) - hp)), true⟩ := by
  simp only [decLoopF, if_pos hread, if_pos hcross, hdec]

theorem encLoop_getD (fc : FileCryptor) (hbs : 0 < fc.blocksize_) (pt : List Nat)
    (i : Nat) (hi : i < pt.length / fc.blocksize_) :
    (fc.encLoop fc.nonce_ pt).1.getD i [] =
      aeadEncrypt fc.header_ ((pt.drop (fc.blocksize_ * i)).take fc.blocksize_)
        fc.key_.bytes (fc.nonce_ + i) :=
  encLoopF_getD fc hbs (pt.length + 1) pt fc.nonce_ i (by omega) hi

theorem encLoop_mem_length (fc : FileCryptor) (pt : List Nat) :
    ∀ c ∈ (fc.encLoop fc.nonce_ pt).1, c.length = MACSIZE + fc.blocksize_ :=
  fun c hc => encLoopF_mem_length fc (pt.length + 1) pt fc.nonce_ c hc

/-- Running the decryption loop on the output of encrypt: the loop consumes
every full chunk written by the encryption loop, opening chunk `i` under
nonce `base + i`, and continues at the position right after them with the
plaintext of the full blocks written out and their chunk bytes folded into
the digest. -/
theorem decLoop_encrypt (fc : FileCryptor) (pt : List Nat)
    (hbs : 0 < fc.blocksize_) (hh : 2 ≤ fc.hashsize_) :
    fc.decLoop (fc.encrypt pt) ((fc.encrypt pt).length - fc.hashsize_) =
      decLoopF fc (fc.encrypt pt) ((fc.encrypt pt).length - fc.hashsize_)
        ((fc.encrypt pt).length - (fc.encLoop fc.nonce_ pt).1.flatten.length + 1)
        ((fc.encLoop fc.nonce_ pt).1.flatten.length)
        (fc.nonce_ + pt.length / fc.blocksize_)
        (pt.take (fc.blocksize_ * (pt.length / fc.blocksize_)))
        ((fc.encLoop fc.nonce_ pt).1.flatten) := by
  have hTlen : (genericHash fc.hashkey_ fc.hashsize_ (fc.encChunks pt).flatten).length =
      fc.hashsize_ := genericHash_length _ _ _ hh
  have hcs : fc.encrypt pt = (fc.encChunks pt).flatten ++
      genericHash fc.hashkey_ fc.hashsize_ (fc.encChunks pt).flatten := rfl
  have hLen : (fc.encrypt pt).length = (fc.encChunks pt).flatten.length + fc.hashsize_ := by
    rw [hcs, List.length_append, hTlen]
  have he : (fc.encChunks pt).flatten = (fc.encLoop fc.nonce_ pt).1.flatten ++
      (if pt.length % fc.blocksize_ = 0 then ([] : List (List Nat))
       else [aeadEncrypt fc.header_ (pt.drop (fc.blocksize_ * (pt.length / fc.blocksize_)))
              fc.key_.bytes (fc.nonce_ + pt.length / fc.blocksize_)]).flatten := by
    conv_lhs => rw [encChunks_eq fc hbs pt]
    rw [List.flatten_append]
  have hcnt := encLoop_length fc hbs pt
  have hple : (fc.encrypt pt).length - fc.hashsize_ ≤ (fc.encrypt pt).length := by omega
  have hdrop : (fc.encrypt pt).drop 0 = (fc.encLoop fc.nonce_ pt).1.flatten ++
      ((if pt.length % fc.blocksize_ = 0 then ([] : List (List Nat))
        else [aeadEncrypt fc.header_ (pt.drop (fc.blocksize_ * (pt.length / fc.blocksize_)))
              fc.key_.bytes (fc.nonce_ + pt.length / fc.blocksize_)]).flatten ++
        genericHash fc.hashkey_ fc.hashsize_ (fc.encChunks pt).flatten) := by
    rw [List.drop_zero]
    conv_lhs => rw [hcs, he]
    rw [List.append_assoc, he]
  have hpos : 0 + (fc.encLoop fc.nonce_ pt).1.flatten.length ≤
      (fc.encrypt pt).length - fc.hashsize_ := by
    have hsplit : (fc.encChunks pt).flatten.length =
        (fc.encLoop fc.nonce_ pt).1.flatten.length +
        (if pt.length % fc.blocksize_ = 0 then ([] : List (List Nat))
         else [aeadEncrypt fc.header_ (pt.drop (fc.blocksize_ * (pt.length / fc.blocksize_)))
                fc.key_.bytes (fc.nonce_ + pt.length / fc.blocksize_)]).flatten.length := by
      rw [he, List.length_append]
    omega
  have hlen2 : (fc.encLoop fc.nonce_ pt).1.length =
      (ptBlocks fc.blocksize_ pt (pt.length / fc.blocksize_)).length := by
    rw [hcnt, ptBlocks, List.length_map, List.length_range]
  have hdec : ∀ i, i < (fc.encLoop fc.nonce_ pt).1.length →
      aeadDecrypt fc.header_ ((fc.encLoop fc.nonce_ pt).1.getD i []) fc.key_.bytes
        (fc.nonce_ + i) =
      some ((ptBlocks fc.blocksize_ pt (pt.length / fc.blocksize_)).getD i []) := by
    intro i hi
    rw [hcnt] at hi
    rw [encLoop_getD fc hbs pt i hi, ptBlocks_getD _ _ _ i hi]
    exact aeadDecrypt_encrypt _ _ _ _
  have hfuel : (fc.encrypt pt).length - 0 < (fc.encrypt pt).length + 1 := by omega
  have hstep := decLoopF_chunks fc (fc.encrypt pt) ((fc.encrypt pt).length - fc.hashsize_)
    hple (fc.encLoop fc.nonce_ pt).1 (ptBlocks fc.blocksize_ pt (pt.length / fc.blocksize_))
    ((fc.encrypt pt).length + 1) 0 fc.nonce_ [] [] _
    hlen2 hdec (encLoop_mem_length fc pt) hdrop hpos hfuel
  simp only [Nat.zero_add, List.nil_append, hcnt, ptBlocks_flatten] at hstep
  simp only [FileCryptor.decLoop]
  exact hstep

/-- Decrypting the output of encrypt when the plaintext length is an exact
multiple of the blocksize and the digest is shorter than a full read: after
the full chunks, the final read fails entirely inside the trailer, the
cleared buffer means no final chunk is decrypted, and the digest
comparison succeeds. -/
theorem decryptT_encrypt_multiple (fc : FileCryptor) (pt : List Nat)
    (hbs : 0 < fc.blocksize_) (hh : 2 ≤ fc.hashsize_)
    (hr : pt.length % fc.blocksize_ = 0)
    (hlt : fc.hashsize_ < MACSIZE + fc.blocksize_) :
    fc.decryptT (fc.encrypt pt) =
      ⟨.ok pt, false, none, (fc.encChunks pt).flatten⟩ := by
  have hM : MACSIZE = 16 := rfl
  have hmod := Nat.div_add_mod pt.length fc.blocksize_
  have hTlen : (genericHash fc.hashkey_ fc.hashsize_ (fc.encChunks pt).flatten).length =
      fc.hashsize_ := genericHash_length _ _ _ hh
  have hcs : fc.encrypt pt = (fc.encChunks pt).flatten ++
      genericHash fc.hashkey_ fc.hashsize_ (fc.encChunks pt).flatten := rfl
  have hLen : (fc.encrypt pt).length = (fc.encChunks pt).flatten.length + fc.hashsize_ := by
    rw [hcs, List.length_append, hTlen]
  have hek : fc.encChunks pt = (fc.encLoop fc.nonce_ pt).1 := by
    rw [encChunks_eq fc hbs pt, if_pos hr, List.append_nil]
  have hLen2 : (fc.encrypt pt).length =
      (fc.encLoop fc.nonce_ pt).1.flatten.length + fc.hashsize_ := by
    rw [hLen, hek]
  have hseek : ¬ (fc.encrypt pt).length < fc.hashsize_ := by omega
  have hstop : ¬ (fc.encLoop fc.nonce_ pt).1.flatten.length +
      (MACSIZE + fc.blocksize_) ≤ (fc.encrypt pt).length := by omega
  have hloop := decLoop_encrypt fc pt hbs hh
  rw [decLoopF_stop fc (fc.encrypt pt) _ _ _ _ _ _ hstop] at hloop
  have htake : pt.take (fc.blocksize_ * (pt.length / fc.blocksize_)) = pt := by
    have hbk : fc.blocksize_ * (pt.length / fc.blocksize_) = pt.length := by omega
    rw [hbk, List.take_length]
  rw [htake] at hloop
  have hsaved : (fc.encrypt pt).drop ((fc.encrypt pt).length - fc.hashsize_) =
      genericHash fc.hashkey_ fc.hashsize_ (fc.encChunks pt).flatten := by
    have hpp : (fc.encrypt pt).length - fc.hashsize_ =
        (fc.encChunks pt).flatten.length := by omega
    rw [hpp]
    conv_lhs => rw [hcs]
    rw [List.drop_left]
  have hs : (fc.encrypt pt).length - (fc.encLoop fc.nonce_ pt).1.flatten.length =
      fc.hashsize_ := by omega
  have hne : fc.hashsize_ ≠ 0 := by omega
  have hnlt : ¬ fc.hashsize_ < fc.hashsize_ := by omega
  simp only [FileCryptor.decryptT, if_neg hseek, hloop]
  simp only [decFinish]
  rw [hs, if_neg (by simp : ¬ (false = true)), if_pos hne, if_neg hnlt, hsaved, hek]
  simp only [finishDec, if_pos rfl, if_true]

/-- Decrypting the output of encrypt when the plaintext length is not a
multiple of the blocksize and the read covering the final partial chunk
reaches into the trailer: the read succeeds, the trailer overlap is dropped,
the trimmed chunk is opened inside the loop, `in_hash` ends the loop, and
the digest comparison succeeds. -/
theorem decryptT_encrypt_cross (fc : FileCryptor) (pt : List Nat)
    (hbs : 0 < fc.blocksize_) (hh : 2 ≤ fc.hashsize_)
    (hr : pt.length % fc.blocksize_ ≠ 0)
    (hcr : fc.blocksize_ ≤ pt.length % fc.blocksize_ + fc.hashsize_) :
    fc.decryptT (fc.encrypt pt) =
      ⟨.ok pt, true, none, (fc.encChunks pt).flatten⟩ := by
  have hM : MACSIZE = 16 := rfl
  have hmod := Nat.div_add_mod pt.length fc.blocksize_
  have hrlt := Nat.mod_lt pt.length hbs
  have hTlen : (genericHash fc.hashkey_ fc.hashsize_ (fc.encChunks pt).flatten).length =
      fc.hashsize_ := genericHash_length _ _ _ hh
  have hcs : fc.encrypt pt = (fc.encChunks pt).flatten ++
      genericHash fc.hashkey_ fc.hashsize_ (fc.encChunks pt).flatten := rfl
  have hLen : (fc.encrypt pt).length = (fc.encChunks pt).flatten.length + fc.hashsize_ := by
    rw [hcs, List.length_append, hTlen]
  have hchunksflat : (fc.encChunks pt).flatten = (fc.encLoop fc.nonce_ pt).1.flatten ++
      aeadEncrypt fc.header_ (pt.drop (fc.blocksize_ * (pt.length / fc.blocksize_)))
        fc.key_.bytes (fc.nonce_ + pt.length / fc.blocksize_) := by
    rw [encChunks_eq fc hbs pt, if_neg hr, List.flatten_append, List.flatten_cons,
      List.flatten_nil, List.append_nil]
  have hfinlen : (aeadEncrypt fc.header_
      (pt.drop (fc.blocksize_ * (pt.length / fc.blocksize_))) fc.key_.bytes
      (fc.nonce_ + pt.length / fc.blocksize_)).length =
      MACSIZE + pt.length % fc.blocksize_ := by
    rw [aeadEncrypt_length, List.length_drop]
    omega
  have hLen2 : (fc.encrypt pt).length = (fc.encLoop fc.nonce_ pt).1.flatten.length +
      (MACSIZE + pt.length % fc.blocksize_) + fc.hashsize_ := by
    rw [hLen, hchunksflat, List.length_append, hfinlen]
  have hseek : ¬ (fc.encrypt pt).length < fc.hashsize_ := by omega
  have hhp : (fc.encrypt pt).length - fc.hashsize_ =
      (fc.encLoop fc.nonce_ pt).1.flatten.length + (MACSIZE + pt.length % fc.blocksize_) := by
    omega
  have hsaved : (fc.encrypt pt).drop ((fc.encrypt pt).length - fc.hashsize_) =
      genericHash fc.hashkey_ fc.hashsize_ (fc.encChunks pt).flatten := by
    have hpp : (fc.encrypt pt).length - fc.hashsize_ =
        (fc.encChunks pt).flatten.length := by omega
    rw [hpp]
    conv_lhs => rw [hcs]
    rw [List.drop_left]
  have hdropP : (fc.encrypt pt).drop ((fc.encLoop fc.nonce_ pt).1.flatten.length) =
      aeadEncrypt fc.header_ (pt.drop (fc.blocksize_ * (pt.length / fc.blocksize_)))
        fc.key_.bytes (fc.nonce_ + pt.length / fc.blocksize_) ++
      genericHash fc.hashkey_ fc.hashsize_ (fc.encChunks pt).flatten := by
    conv_lhs => rw [hcs, hchunksflat]
    rw [List.append_assoc, List.drop_left, hchunksflat]
  have hread : (fc.encLoop fc.nonce_ pt).1.flatten.length + (MACSIZE + fc.blocksize_) ≤
      (fc.encrypt pt).length := by omega
  have hcross : (fc.encrypt pt).length - fc.hashsize_ <
      (fc.encLoop fc.nonce_ pt).1.flatten.length + (MACSIZE + fc.blocksize_) := by omega
  have hchunkeq : (((fc.encrypt pt).drop
        ((fc.encLoop fc.nonce_ pt).1.flatten.length)).take (MACSIZE + fc.blocksize_)).take
      (MACSIZE + fc.blocksize_ -
        ((fc.encLoop fc.nonce_ pt).1.flatten.length + (MACSIZE + fc.blocksize_) -
          ((fc.encrypt pt).length - fc.hashsize_))) =
      aeadEncrypt fc.header_ (pt.drop (fc.blocksize_ * (pt.length / fc.blocksize_)))
        fc.key_.bytes (fc.nonce_ + pt.length / fc.blocksize_) := by
    have harg : MACSIZE + fc.blocksize_ -
        ((fc.encLoop fc.nonce_ pt).1.flatten.length + (MACSIZE + fc.blocksize_) -
          ((fc.encrypt pt).length - fc.hashsize_)) =
        MACSIZE + pt.length % fc.blocksize_ := by omega
    rw [harg, List.take_take]
    have hmin : min (MACSIZE + pt.length % fc.blocksize_) (MACSIZE + fc.blocksize_) =
        MACSIZE + pt.length % fc.blocksize_ := by omega
    rw [hmin, hdropP, ← hfinlen, List.take_left]
  have hloop := decLoop_encrypt fc pt hbs hh
  rw [decLoopF_cross fc (fc.encrypt pt) ((fc.encrypt pt).length - fc.hashsize_)
    ((fc.encrypt pt).length - (fc.encLoop fc.nonce_ pt).1.flatten.length)
    ((fc.encLoop fc.nonce_ pt).1.flatten.length)
    (fc.nonce_ + pt.length / fc.blocksize_)
    (pt.take (fc.blocksize_ * (pt.length / fc.blocksize_)))
    ((fc.encLoop fc.nonce_ pt).1.flatten)
    (pt.drop (fc.blocksize_ * (pt.length / fc.blocksize_)))
    hread hcross (by rw [hchunkeq]; exact aeadDecrypt_encrypt _ _ _ _)] at hloop
  rw [hchunkeq, List.take_append_drop, ← hchunksflat] at hloop
  simp only [FileCryptor.decryptT, if_neg hseek, hloop]
  simp only [decFinish, if_true]
  rw [hsaved]
  simp only [finishDec, if_pos rfl, if_true]

/-- Decrypting the output of encrypt when the plaintext length is not a
multiple of the blocksize and the digest is too short for the final read to
succeed: the loop ends on a short read, the trailer bytes are trimmed from
the leftover, the final partial chunk is opened after the loop, and the
digest comparison succeeds. -/
theorem decryptT_encrypt_short (fc : FileCryptor) (pt : List Nat)
    (hbs : 0 < fc.blocksize_) (hh : 2 ≤ fc.hashsize_)
    (hr : pt.length % fc.blocksize_ ≠ 0)
    (hsh : pt.length % fc.blocksize_ + fc.hashsize_ < fc.blocksize_) :
    fc.decryptT (fc.encrypt pt) =
      ⟨.ok pt, false,
        some (aeadEncrypt fc.header_ (pt.drop (fc.blocksize_ * (pt.length / fc.blocksize_)))
          fc.key_.bytes (fc.nonce_ + pt.length / fc.blocksize_)),
        (fc.encChunks pt).flatten⟩ := by
  have hM : MACSIZE = 16 := rfl
  have hmod := Nat.div_add_mod pt.length fc.blocksize_
  have hrlt := Nat.mod_lt pt.length hbs
  have hTlen : (genericHash fc.hashkey_ fc.hashsize_ (fc.encChunks pt).flatten).length =
      fc.hashsize_ := genericHash_length _ _ _ hh
  have hcs : fc.encrypt pt = (fc.encChunks pt).flatten ++
      genericHash fc.hashkey_ fc.hashsize_ (fc.encChunks pt).flatten := rfl
  have hLen : (fc.encrypt pt).length = (fc.encChunks pt).flatten.length + fc.hashsize_ := by
    rw [hcs, List.length_append, hTlen]
  have hchunksflat : (fc.encChunks pt).flatten = (fc.encLoop fc.nonce_ pt).1.flatten ++
      aeadEncrypt fc.header_ (pt.drop (fc.blocksize_ * (pt.length / fc.blocksize_)))
        fc.key_.bytes (fc.nonce_ + pt.length / fc.blocksize_) := by
    rw [encChunks_eq fc hbs pt, if_neg hr, List.flatten_append, List.flatten_cons,
      List.flatten_nil, List.append_nil]
  have hfinlen : (aeadEncrypt fc.header_
      (pt.drop (fc.blocksize_ * (pt.length / fc.blocksize_))) fc.key_.bytes
      (fc.nonce_ + pt.length / fc.blocksize_)).length =
      MACSIZE + pt.length % fc.blocksize_ := by
    rw [aeadEncrypt_length, List.length_drop]
    omega
  have hLen2 : (fc.encrypt pt).length = (fc.encLoop fc.nonce_ pt).1.flatten.length +
      (MACSIZE + pt.length % fc.blocksize_) + fc.hashsize_ := by
    rw [hLen, hchunksflat, List.length_append, hfinlen]
  have hseek : ¬ (fc.encrypt pt).length < fc.hashsize_ := by omega
  have hsaved : (fc.encrypt pt).drop ((fc.encrypt pt).length - fc.hashsize_) =
      genericHash fc.hashkey_ fc.hashsize_ (fc.encChunks pt).flatten := by
    have hpp : (fc.encrypt pt).length - fc.hashsize_ =
        (fc.encChunks pt).flatten.length := by omega
    rw [hpp]
    conv_lhs => rw [hcs]
    rw [List.drop_left]
  have hdropP : (fc.encrypt pt).drop ((fc.encLoop fc.nonce_ pt).1.flatten.length) =
      aeadEncrypt fc.header_ (pt.drop (fc.blocksize_ * (pt.length / fc.blocksize_)))
        fc.key_.bytes (fc.nonce_ + pt.length / fc.blocksize_) ++
      genericHash fc.hashkey_ fc.hashsize_ (fc.encChunks pt).flatten := by
    conv_lhs => rw [hcs, hchunksflat]
    rw [List.append_assoc, List.drop_left, hchunksflat]
  have hstop : ¬ (fc.encLoop fc.nonce_ pt).1.flatten.length +
      (MACSIZE + fc.blocksize_) ≤ (fc.encrypt pt).length := by omega
  have hloop := decLoop_encrypt fc pt hbs hh
  rw [decLoopF_stop fc (fc.encrypt pt) _ _ _ _ _ _ hstop] at hloop
  have hchunkeq2 : ((fc.encrypt pt).drop ((fc.encLoop fc.nonce_ pt).1.flatten.length)).take
      ((fc.encrypt pt).length - (fc.encLoop fc.nonce_ pt).1.flatten.length - fc.hashsize_) =
      aeadEncrypt fc.header_ (pt.drop (fc.blocksize_ * (pt.length / fc.blocksize_)))
        fc.key_.bytes (fc.nonce_ + pt.length / fc.blocksize_) := by
    have harg : (fc.encrypt pt).length - (fc.encLoop fc.nonce_ pt).1.flatten.length -
        fc.hashsize_ = MACSIZE + pt.length % fc.blocksize_ := by omega
    rw [harg, hdropP, ← hfinlen, List.take_left]
  have hcond1 : (fc.encrypt pt).length -
      (fc.encLoop fc.nonce_ pt).1.flatten.length ≠ 0 := by omega
  have hcond2 : fc.hashsize_ < (fc.encrypt pt).length -
      (fc.encLoop fc.nonce_ pt).1.flatten.length := by omega
  simp only [FileCryptor.decryptT, if_neg hseek, hloop]
  simp only [decFinish]
  rw [if_neg (by simp : ¬ (false = true)), if_pos hcond1, if_pos hcond2, hchunkeq2]
  simp only [aeadDecrypt_encrypt]
  rw [List.take_append_drop, ← hchunksflat, hsaved]
  simp only [finishDec, if_pos rfl, if_true]

theorem getD_take {α : Type} (l : List α) (m i : Nat) (d : α) (h : i < m) :
    (l.take m).getD i d = l.getD i d := by
  simp [List.getD, List.getElem?_take, h]

theorem flatten_length_const (C : Nat) :
    ∀ l : List (List Nat), (∀ c ∈ l, c.length = C) → l.flatten.length = l.length * C := by
  intro l
  induction l with
  | nil => intro _; simp
  | cons c ct ih =>
    intro h
    simp only [List.flatten_cons, List.length_append, List.length_cons,
      h c (by simp), ih (fun x hx => h x (by simp [hx]))]
    ring

/-- Dropping the last chunk of an encrypted stream while keeping the
original digest trailer: every remaining chunk still opens under its nonce,
no final chunk remains after trimming, and the recomputed digest (over one
chunk fewer) differs from the saved one, so decrypt throws the digest
mismatch error. -/
theorem decrypt_truncated (fc : FileCryptor) (pt : List Nat)
    (hbs : 0 < fc.blocksize_) (hh : 2 ≤ fc.hashsize_)
    (hlt : fc.hashsize_ < MACSIZE + fc.blocksize_) (hpt : pt ≠ []) :
    fc.decrypt ((fc.encChunks pt).dropLast.flatten ++
      genericHash fc.hashkey_ fc.hashsize_ (fc.encChunks pt).flatten) =
      .error .hashMismatch := by
  have hM : MACSIZE = 16 := rfl
  have hmod := Nat.div_add_mod pt.length fc.blocksize_
  have hrlt := Nat.mod_lt pt.length hbs
  have hptlen : 0 < pt.length := List.length_pos.mpr hpt
  have hcntf := encChunks_length fc hbs pt
  have hcnt1 : 1 ≤ (fc.encChunks pt).length := by
    rw [hcntf]
    by_cases hr : pt.length % fc.blocksize_ = 0
    · rw [if_pos hr]
      have hble : fc.blocksize_ ≤ pt.length := by
        by_contra hlt2
        rw [Nat.mod_eq_of_lt (by omega)] at hr
        omega
      exact Nat.one_le_div_iff hbs |>.mpr hble
    · rw [if_neg hr]
      exact Nat.succ_le_succ (Nat.zero_le _)
  have hcntk : (fc.encChunks pt).length - 1 ≤ pt.length / fc.blocksize_ := by
    rw [hcntf]
    by_cases hr : pt.length % fc.blocksize_ = 0
    · rw [if_pos hr]
      exact Nat.sub_le _ _
    · rw [if_neg hr, Nat.succ_sub_one]
  -- the claim-relevant stream
  have hTlen : (genericHash fc.hashkey_ fc.hashsize_ (fc.encChunks pt).flatten).length =
      fc.hashsize_ := genericHash_length _ _ _ hh
  -- the front chunks are all full
  have hfrontlen : (fc.encChunks pt).dropLast.length = (fc.encChunks pt).length - 1 :=
    List.length_dropLast _
  have hfrontgetD : ∀ i, i < (fc.encChunks pt).length - 1 →
      (fc.encChunks pt).dropLast.getD i [] =
        aeadEncrypt fc.header_ ((pt.drop (fc.blocksize_ * i)).take fc.blocksize_)
          fc.key_.bytes (fc.nonce_ + i) := by
    intro i hi
    have htk := getD_take (fc.encChunks pt) ((fc.encChunks pt).length - 1) i [] hi
    rw [List.dropLast_eq_take, htk]
    exact encChunks_getD fc hbs pt i (by omega)
  have hfull : ∀ i, i < (fc.encChunks pt).length - 1 →
      ((pt.drop (fc.blocksize_ * i)).take fc.blocksize_).length = fc.blocksize_ := by
    intro i hi
    rw [List.length_take, List.length_drop]
    have hik : i + 1 ≤ pt.length / fc.blocksize_ := by omega
    have hmul : fc.blocksize_ * (i + 1) ≤
        fc.blocksize_ * (pt.length / fc.blocksize_) :=
      Nat.mul_le_mul_left _ hik
    have hble : fc.blocksize_ * (pt.length / fc.blocksize_) ≤ pt.length := by omega
    have hd : fc.blocksize_ * (i + 1) = fc.blocksize_ * i + fc.blocksize_ := by ring
    omega
  have hclen : ∀ c ∈ (fc.encChunks pt).dropLast, c.length = MACSIZE + fc.blocksize_ := by
    intro c hc
    obtain ⟨i, hi, hgi⟩ := List.mem_iff_getElem.mp hc
    have hi' : i < (fc.encChunks pt).length - 1 := by omega
    have := hfrontgetD i hi'
    rw [List.getD_eq_getElem _ _ hi, hgi] at this
    rw [this, aeadEncrypt_length, hfull i hi']
  have hflatfront := flatten_length_const (MACSIZE + fc.blocksize_) _ hclen
  -- stream facts
  have hLen : ((fc.encChunks pt).dropLast.flatten ++
      genericHash fc.hashkey_ fc.hashsize_ (fc.encChunks pt).flatten).length =
      (fc.encChunks pt).dropLast.flatten.length + fc.hashsize_ := by
    rw [List.length_append, hTlen]
  have hseek : ¬ ((fc.encChunks pt).dropLast.flatten ++
      genericHash fc.hashkey_ fc.hashsize_ (fc.encChunks pt).flatten).length <
      fc.hashsize_ := by omega
  have hhp : ((fc.encChunks pt).dropLast.flatten ++
      genericHash fc.hashkey_ fc.hashsize_ (fc.encChunks pt).flatten).length -
      fc.hashsize_ = (fc.encChunks pt).dropLast.flatten.length := by omega
  have hdec : ∀ i, i < (fc.encChunks pt).dropLast.length →
      aeadDecrypt fc.header_ ((fc.encChunks pt).dropLast.getD i []) fc.key_.bytes
        (fc.nonce_ + i) =
      some ((ptBlocks fc.blocksize_ pt ((fc.encChunks pt).length - 1)).getD i []) := by
    intro i hi
    rw [hfrontlen] at hi
    rw [hfrontgetD i hi, ptBlocks_getD _ _ _ i hi]
    exact aeadDecrypt_encrypt _ _ _ _
  have hlen2 : (fc.encChunks pt).dropLast.length =
      (ptBlocks fc.blocksize_ pt ((fc.encChunks pt).length - 1)).length := by
    rw [hfrontlen, ptBlocks, List.length_map, List.length_range]
  have hdrop : ((fc.encChunks pt).dropLast.flatten ++
      genericHash fc.hashkey_ fc.hashsize_ (fc.encChunks pt).flatten).drop 0 =
      (fc.encChunks pt).dropLast.flatten ++
      genericHash fc.hashkey_ fc.hashsize_ (fc.encChunks pt).flatten := List.drop_zero _
  have hstep := decLoopF_chunks fc
    ((fc.encChunks pt).dropLast.flatten ++
      genericHash fc.hashkey_ fc.hashsize_ (fc.encChunks pt).flatten)
    (((fc.encChunks pt).dropLast.flatten ++
      genericHash fc.hashkey_ fc.hashsize_ (fc.encChunks pt).flatten).length -
      fc.hashsize_)
    (by omega)
    (fc.encChunks pt).dropLast
    (ptBlocks fc.blocksize_ pt ((fc.encChunks pt).length - 1))
    (((fc.encChunks pt).dropLast.flatten ++
      genericHash fc.hashkey_ fc.hashsize_ (fc.encChunks pt).flatten).length + 1)
    0 fc.nonce_ [] []
    (genericHash fc.hashkey_ fc.hashsize_ (fc.encChunks pt).flatten)
    hlen2 hdec hclen hdrop (by omega) (by omega)
  simp only [Nat.zero_add, List.nil_append] at hstep
  -- after the front chunks the read fails inside the trailer
  have hstop : ¬ (fc.encChunks pt).dropLast.flatten.length + (MACSIZE + fc.blocksize_) ≤
      ((fc.encChunks pt).dropLast.flatten ++
        genericHash fc.hashkey_ fc.hashsize_ (fc.encChunks pt).flatten).length := by
    omega
  rw [decLoopF_stop fc _ _ _ _ _ _ _ hstop] at hstep
  have hsaved : ((fc.encChunks pt).dropLast.flatten ++
      genericHash fc.hashkey_ fc.hashsize_ (fc.encChunks pt).flatten).drop
      (((fc.encChunks pt).dropLast.flatten ++
        genericHash fc.hashkey_ fc.hashsize_ (fc.encChunks pt).flatten).length -
        fc.hashsize_) =
      genericHash fc.hashkey_ fc.hashsize_ (fc.encChunks pt).flatten := by
    rw [hhp, List.drop_left]
  have hne : fc.hashsize_ ≠ 0 := by omega
  have hnlt : ¬ fc.hashsize_ < fc.hashsize_ := by omega
  have hs : ((fc.encChunks pt).dropLast.flatten ++
      genericHash fc.hashkey_ fc.hashsize_ (fc.encChunks pt).flatten).length -
      (fc.encChunks pt).dropLast.flatten.length = fc.hashsize_ := by omega
  -- the recomputed digest differs from the saved one
  have hne0 : fc.encChunks pt ≠ [] := by
    intro h0
    rw [h0] at hcnt1
    simp at hcnt1
  have hlast := List.dropLast_append_getLast (l := fc.encChunks pt) hne0
  have hlastlen := encChunks_mem_length fc hbs pt
    ((fc.encChunks pt).getLast hne0) (List.getLast_mem hne0)
  have hfedne : (fc.encChunks pt).dropLast.flatten ≠ (fc.encChunks pt).flatten := by
    intro heq
    have hfl : (fc.encChunks pt).flatten =
        (fc.encChunks pt).dropLast.flatten ++ (fc.encChunks pt).getLast hne0 := by
      conv_lhs => rw [← hlast]
      rw [List.flatten_append]
      simp
    rw [hfl] at heq
    have hlz : ((fc.encChunks pt).getLast hne0).length = 0 := by
      have hl := congrArg List.length heq
      rw [List.length_append] at hl
      omega
    omega
  have hdiff : genericHash fc.hashkey_ fc.hashsize_ ((fc.encChunks pt).dropLast.flatten) ≠
      genericHash fc.hashkey_ fc.hashsize_ ((fc.encChunks pt).flatten) := by
    intro heq
    exact hfedne (genericHash_injective _ _ _ _ hh heq)
  rw [FileCryptor.decrypt]
  simp only [FileCryptor.decryptT, if_neg hseek, FileCryptor.decLoop, hstep]
  simp only [decFinish]
  rw [hs, if_neg (by simp : ¬ (false = true)), if_pos hne, if_neg hnlt, hsaved]
  simp only [finishDec, if_neg hdiff]

/-- Whenever decrypt reaches the digest comparison (result ok or digest
mismatch, i.e. no seek failure and no chunk authentication failure), the
bytes folded into the recomputed digest are exactly the stream bytes at
positions `[0, L - hashsize)`, in order. -/
theorem decryptT_fed (fc : FileCryptor) (cs : List Nat)
    (hres : (∃ v, (fc.decryptT cs).result = .ok v) ∨
      (fc.decryptT cs).result = .error .hashMismatch) :
    (fc.decryptT cs).fed = cs.take (cs.length - fc.hashsize_) := by
  by_cases hseek : cs.length < fc.hashsize_
  · simp only [FileCryptor.decryptT, if_pos hseek] at hres
    rcases hres with ⟨v, hv⟩ | hv <;> simp at hv
  · simp only [FileCryptor.decryptT, if_neg hseek] at hres ⊢
    cases hlo : fc.decLoop cs (cs.length - fc.hashsize_) with
    | error e =>
      have he : e = .authFailure := by
        rw [FileCryptor.decLoop] at hlo
        exact decLoopF_error fc cs _ _ _ _ _ _ _ hlo
      subst he
      simp only [hlo] at hres
      rcases hres with ⟨v, hv⟩ | hv <;> simp at hv
    | ok lo =>
      simp only [hlo] at hres ⊢
      have hlo' : decLoopF fc cs (cs.length - fc.hashsize_) (cs.length + 1) 0 fc.nonce_
          [] [] = .ok lo := by
        rw [FileCryptor.decLoop] at hlo
        exact hlo
      have hfacts := decLoopF_fed fc cs (cs.length - fc.hashsize_) (cs.length + 1)
        0 fc.nonce_ [] [] lo (by omega) (by omega) hlo'
      by_cases hih : lo.inHash = true
      · simp only [decFinish, if_pos hih]
        have hf := hfacts.1 hih
        rw [hf]
        simp only [List.nil_append, List.drop_zero, Nat.sub_zero]
      · have hih' : lo.inHash = false := by
          cases h : lo.inHash
          · rfl
          · exact absurd h hih
        obtain ⟨hf, hple1, hple2, hread⟩ := hfacts.2 hih'
        rw [List.nil_append, List.drop_zero, Nat.sub_zero] at hf
        simp only [decFinish, if_neg hih] at hres ⊢
        by_cases hs0 : cs.length - lo.pos ≠ 0
        · simp only [if_pos hs0] at hres ⊢
          by_cases hslt : fc.hashsize_ < cs.length - lo.pos
          · simp only [if_pos hslt] at hres ⊢
            cases hdec : aeadDecrypt fc.header_
                ((cs.drop lo.pos).take (cs.length - lo.pos - fc.hashsize_))
                fc.key_.bytes lo.nonce with
            | none =>
              simp only [hdec] at hres
              rcases hres with ⟨v, hv⟩ | hv <;> simp at hv
            | some p =>
              simp only [hdec]
              rw [hf, ← List.take_add]
              congr 1
              omega
          · simp only [if_neg hslt]
            rw [hf]
            congr 1
            omega
        · simp only [if_neg hs0]
          rw [hf]
          congr 1
          omega

/-! ### Concrete configurations used by witnesses and counterexamples -/

/-- A typical valid configuration: blocksize 4, digest size 16. -/
def fcW : FileCryptor :=
  ⟨⟨List.replicate 32 0, .readonly⟩, 5, [], 4, [1, 2], 16⟩

/-- A valid configuration with blocksize 1 and digest size 17, so that the
digest region is at least as long as one full read
(`hashsize_ ≥ MACSIZE + blocksize_`). -/
def fcX : FileCryptor :=
  ⟨⟨List.replicate 32 0, .readonly⟩, 0, [], 1, [], 17⟩

/-- A valid configuration with blocksize 8 and the default generichash
digest size 32. -/
def fcY : FileCryptor :=
  ⟨⟨List.replicate 32 0, .readonly⟩, 0, [], 8, [], 32⟩

/-- A valid configuration with blocksize 1 and digest size 16. -/
def fcZ : FileCryptor :=
  ⟨⟨List.replicate 32 0, .readonly⟩, 0, [], 1, [], 16⟩

/-! ### The claims -/

/-- C1 (amended): decrypting the stream produced by `encrypt(P)` with the
same key, base nonce and blocksize succeeds and writes exactly `P`,
provided the plaintext length is not an exact multiple of the blocksize or
the digest is shorter than one full read (`hashsize < MACSIZE +
blocksize`); outside that proviso decrypt rejects its own output (see the
counterexample). -/
theorem roundtrip (fc : FileCryptor) (pt : List Nat) (hv : ValidConfig fc)
    (hcond : pt.length % fc.blocksize_ ≠ 0 ∨
      fc.hashsize_ < MACSIZE + fc.blocksize_) :
    fc.decrypt (fc.encrypt pt) = .ok pt := by
  obtain ⟨hbs, hh16, hkey⟩ := hv
  have hh : 2 ≤ fc.hashsize_ := by omega
  rw [FileCryptor.decrypt]
  by_cases hr : pt.length % fc.blocksize_ = 0
  · have hlt : fc.hashsize_ < MACSIZE + fc.blocksize_ := by tauto
    rw [decryptT_encrypt_multiple fc pt hbs hh hr hlt]
  · by_cases hcr : fc.blocksize_ ≤ pt.length % fc.blocksize_ + fc.hashsize_
    · rw [decryptT_encrypt_cross fc pt hbs hh hr hcr]
    · rw [decryptT_encrypt_short fc pt hbs hh hr (by omega)]

theorem roundtrip_witness : fcW.decrypt (fcW.encrypt [1, 2, 3]) = .ok [1, 2, 3] :=
  roundtrip fcW [1, 2, 3] (by decide) (by decide)

/-- C1 counterexample: a valid configuration (blocksize 1, digest size 17,
a 32-byte key) on which decrypt rejects the encryption of the empty
plaintext with an authentication failure: the read covering the digest
region succeeds, the trailer trim leaves an empty chunk, and opening the
empty chunk throws. -/
theorem roundtrip_counterexample :
    ValidConfig fcX ∧ fcX.decrypt (fcX.encrypt []) = .error .authFailure :=
  ⟨by decide, rfl⟩

/-- C2 (amended): encrypt emits `⌈len(P)/blocksize⌉` chunks —
`len(P)/blocksize` when the length is an exact multiple (no extra bare-tag
chunk; an empty input yields no chunk at all) and one more otherwise; the
output length is the sum of the chunk lengths plus `hashsize`, the sum of
chunk lengths is `len(P) + MACSIZE·(number of chunks)`, and every chunk has
length between `MACSIZE + 1` and `MACSIZE + blocksize` (a bare `MACSIZE`
chunk is never written). -/
theorem chunking (fc : FileCryptor) (pt : List Nat) (hv : ValidConfig fc) :
    (fc.encChunks pt).length = (if pt.length % fc.blocksize_ = 0
      then pt.length / fc.blocksize_ else pt.length / fc.blocksize_ + 1) ∧
    (fc.encrypt pt).length = (fc.encChunks pt).flatten.length + fc.hashsize_ ∧
    (fc.encChunks pt).flatten.length = pt.length + MACSIZE * (fc.encChunks pt).length ∧
    ∀ c ∈ fc.encChunks pt,
      MACSIZE + 1 ≤ c.length ∧ c.length ≤ MACSIZE + fc.blocksize_ := by
  obtain ⟨hbs, hh16, hkey⟩ := hv
  refine ⟨encChunks_length fc hbs pt, ?_, encChunks_flatten_length fc hbs pt,
    encChunks_mem_length fc hbs pt⟩
  have hcs : fc.encrypt pt = (fc.encChunks pt).flatten ++
      genericHash fc.hashkey_ fc.hashsize_ (fc.encChunks pt).flatten := rfl
  rw [hcs, List.length_append, genericHash_length _ _ _ (by omega)]

theorem chunking_witness :
    (fcW.encChunks [9, 9, 9, 9, 9, 9]).length = (if (6 : Nat) % 4 = 0
      then 6 / 4 else 6 / 4 + 1) ∧
    (fcW.encrypt [9, 9, 9, 9, 9, 9]).length =
      (fcW.encChunks [9, 9, 9, 9, 9, 9]).flatten.length + fcW.hashsize_ ∧
    (fcW.encChunks [9, 9, 9, 9, 9, 9]).flatten.length =
      6 + MACSIZE * (fcW.encChunks [9, 9, 9, 9, 9, 9]).length ∧
    ∀ c ∈ fcW.encChunks [9, 9, 9, 9, 9, 9],
      MACSIZE + 1 ≤ c.length ∧ c.length ≤ MACSIZE + fcW.blocksize_ :=
  chunking fcW [9, 9, 9, 9, 9, 9] (by decide)

/-- C2 counterexample: an entirely empty input does not produce one
bare-tag chunk — the code emits no chunk at all (the full-block loop reads
nothing and `gcount` is 0, so the final-chunk branch is skipped). -/
theorem chunking_counterexample :
    ValidConfig fcY ∧ (fcY.encChunks []).length ≠ 1 :=
  ⟨by decide, by decide⟩

/-- C3 (amended): after all chunks are processed the recomputed digest is
compared byte-for-byte with the saved trailer, and dropping the last chunk
of an encrypted stream while keeping the original trailer makes decrypt
fail with the digest-mismatch (integrity) error — every remaining chunk
still opening under its nonce — provided `hashsize < MACSIZE + blocksize`
(otherwise the failure surfaces as an authentication failure instead; see
the counterexample). -/
theorem truncation_detected (fc : FileCryptor) (pt : List Nat) (hv : ValidConfig fc)
    (hlt : fc.hashsize_ < MACSIZE + fc.blocksize_) (hpt : pt ≠ []) :
    fc.decrypt ((fc.encChunks pt).dropLast.flatten ++
      genericHash fc.hashkey_ fc.hashsize_ (fc.encChunks pt).flatten) =
      .error .hashMismatch :=
  decrypt_truncated fc pt hv.1 (by have := hv.2.1; omega) hlt hpt

theorem truncation_detected_witness :
    fcW.decrypt ((fcW.encChunks [1, 2, 3, 4, 5]).dropLast.flatten ++
      genericHash fcW.hashkey_ fcW.hashsize_ (fcW.encChunks [1, 2, 3, 4, 5]).flatten) =
      .error .hashMismatch :=
  truncation_detected fcW [1, 2, 3, 4, 5] (by decide) (by decide) (by decide)

/-- C3 counterexample: with blocksize 1 and digest size 17 (a valid
configuration), dropping the single 17-byte chunk of `encrypt [0]` while
keeping the original trailer makes decrypt fail with an authentication
failure, not the integrity error: the 17-byte read succeeds inside the
trailer, is trimmed to an empty chunk, and opening it throws AuthFailure
before the digest comparison is ever reached. -/
theorem truncation_counterexample :
    ValidConfig fcX ∧ fcX.decrypt ((fcX.encrypt [0]).drop 17) = .error .authFailure :=
  ⟨by decide, rfl⟩

/-- C4: opening one chunk succeeds exactly on the output of sealing with
the same header, key and nonce: `aeadDecrypt header c key nonce = some p`
iff `c = aeadEncrypt header p key nonce`.  In particular any tampering of
tag or ciphertext, a wrong key, a wrong nonce, or truncation mid-chunk
makes it fail, and on failure no plaintext (partial or otherwise) is
returned. -/
theorem aead_decrypt_iff (header c key : List Nat) (nonce : Nat) (p : List Nat) :
    aeadDecrypt header c key nonce = some p ↔ c = aeadEncrypt header p key nonce := by
  constructor
  · intro h
    rw [aeadDecrypt] at h
    by_cases h1 : MACSIZE ≤ c.length
    · rw [if_pos h1] at h
      by_cases h2 : c.take MACSIZE = chunkMac header (c.drop MACSIZE) key nonce
      · rw [if_pos h2] at h
        simp only [Option.some_inj] at h
        subst h
        rw [aeadEncrypt, ← h2, List.take_append_drop]
      · rw [if_neg h2] at h
        simp at h
    · rw [if_neg h1] at h
      simp at h
  · intro h
    subst h
    exact aeadDecrypt_encrypt header p key nonce

/-- C5 (amended): the running nonce starts as a copy of the base nonce and
the `i`-th chunk (counting from 0, final chunk included) is sealed under
the base nonce incremented `i` times; the running nonce after the
full-block loop is `base + len(P)/blocksize` (one increment after every
full chunk); and when a final partial chunk exists (`len(P) % blocksize ≠
0`) it is sealed under that current, not-further-incremented running
nonce.  When the plaintext length is a nonzero exact multiple the final
(full) chunk IS followed by one more increment — see the counterexample. -/
theorem nonce_discipline (fc : FileCryptor) (pt : List Nat) (hv : ValidConfig fc) :
    (∀ i, i < (fc.encChunks pt).length →
      (fc.encChunks pt).getD i [] =
        aeadEncrypt fc.header_ ((pt.drop (fc.blocksize_ * i)).take fc.blocksize_)
          fc.key_.bytes (fc.nonce_ + i)) ∧
    (fc.encLoop fc.nonce_ pt).2.1 = fc.nonce_ + pt.length / fc.blocksize_ ∧
    (pt.length % fc.blocksize_ ≠ 0 →
      (fc.encChunks pt).getD ((fc.encChunks pt).length - 1) [] =
        aeadEncrypt fc.header_ (pt.drop (fc.blocksize_ * (pt.length / fc.blocksize_)))
          fc.key_.bytes ((fc.encLoop fc.nonce_ pt).2.1)) := by
  obtain ⟨hbs, hh16, hkey⟩ := hv
  obtain ⟨h1, _, h3, _⟩ := encLoopF_spec fc hbs (pt.length + 1) pt fc.nonce_ (by omega)
  refine ⟨fun i hi => encChunks_getD fc hbs pt i hi, h1, fun hr => ?_⟩
  have hcnt := encChunks_length fc hbs pt
  rw [hcnt, if_neg hr, Nat.succ_sub_one]
  have hgd := encChunks_getD fc hbs pt (pt.length / fc.blocksize_)
    (by rw [hcnt, if_neg hr]; omega)
  rw [hgd]
  simp only [FileCryptor.encLoop]
  rw [h1]
  congr 1
  have hmod := Nat.div_add_mod pt.length fc.blocksize_
  have hrlt := Nat.mod_lt pt.length hbs
  have hlen : (pt.drop (fc.blocksize_ * (pt.length / fc.blocksize_))).length ≤
      fc.blocksize_ := by
    rw [List.length_drop]
    omega
  rw [List.take_of_length_le hlen]

theorem nonce_discipline_witness :
    (∀ i, i < (fcW.encChunks [1, 2, 3, 4, 5, 6]).length →
      (fcW.encChunks [1, 2, 3, 4, 5, 6]).getD i [] =
        aeadEncrypt fcW.header_
          (([1, 2, 3, 4, 5, 6].drop (fcW.blocksize_ * i)).take fcW.blocksize_)
          fcW.key_.bytes (fcW.nonce_ + i)) ∧
    (fcW.encLoop fcW.nonce_ [1, 2, 3, 4, 5, 6]).2.1 = fcW.nonce_ + 6 / fcW.blocksize_ ∧
    ((6 : Nat) % fcW.blocksize_ ≠ 0 →
      (fcW.encChunks [1, 2, 3, 4, 5, 6]).getD
          ((fcW.encChunks [1, 2, 3, 4, 5, 6]).length - 1) [] =
        aeadEncrypt fcW.header_ ([1, 2, 3, 4, 5, 6].drop (fcW.blocksize_ * (6 / fcW.blocksize_)))
          fcW.key_.bytes ((fcW.encLoop fcW.nonce_ [1, 2, 3, 4, 5, 6]).2.1)) :=
  nonce_discipline fcW [1, 2, 3, 4, 5, 6] (by decide)

/-- C5 counterexample: for the one-byte plaintext `[7]` under blocksize 1
(an exact multiple), the running nonce after encryption is `base + 1`
while the final chunk was sealed under `base + 0`: the nonce IS
incremented after the final chunk, contradicting the claim. -/
theorem nonce_discipline_counterexample :
    ValidConfig fcZ ∧ (fcZ.encLoop fcZ.nonce_ [7]).2.1 ≠
      fcZ.nonce_ + ((fcZ.encChunks [7]).length - 1) :=
  ⟨by decide, by decide⟩

/-- C6 (amended): when decrypting the output of encrypt with `hashsize <
MACSIZE + blocksize`, the case "the final short read, trimmed of its
trailer overlap, leaves nothing, so no final chunk is decrypted" arises
exactly when the plaintext length is an exact multiple of the blocksize.
Without that proviso the equivalence fails: for an exact-multiple length
with `hashsize ≥ MACSIZE + blocksize` the loop instead reads into the
trailer and fails (see the counterexample). -/
theorem final_trim_iff (fc : FileCryptor) (pt : List Nat) (hv : ValidConfig fc)
    (hlt : fc.hashsize_ < MACSIZE + fc.blocksize_) :
    ((fc.decryptT (fc.encrypt pt)).inHash = false ∧
      (fc.decryptT (fc.encrypt pt)).finalChunk = none) ↔
    pt.length % fc.blocksize_ = 0 := by
  obtain ⟨hbs, hh16, hkey⟩ := hv
  have hh : 2 ≤ fc.hashsize_ := by omega
  by_cases hr : pt.length % fc.blocksize_ = 0
  · rw [decryptT_encrypt_multiple fc pt hbs hh hr hlt]
    simp [hr]
  · by_cases hcr : fc.blocksize_ ≤ pt.length % fc.blocksize_ + fc.hashsize_
    · rw [decryptT_encrypt_cross fc pt hbs hh hr hcr]
      simp [hr]
    · rw [decryptT_encrypt_short fc pt hbs hh hr (by omega)]
      simp [hr]

theorem final_trim_iff_witness :
    (((fcW.decryptT (fcW.encrypt [1, 2, 3, 4, 5, 6, 7, 8])).inHash = false ∧
      (fcW.decryptT (fcW.encrypt [1, 2, 3, 4, 5, 6, 7, 8])).finalChunk = none) ↔
    (8 : Nat) % fcW.blocksize_ = 0) :=
  final_trim_iff fcW [1, 2, 3, 4, 5, 6, 7, 8] (by decide) (by decide)

/-- C6 counterexample: with blocksize 1 and digest size 17 (a valid
configuration) and the empty plaintext — an exact multiple — decrypt does
not skip the final chunk: the read lands inside the trailer, the trimmed
(empty) chunk is passed to chunk decryption, and the operation fails with
an authentication failure. -/
theorem final_trim_counterexample :
    ValidConfig fcX ∧ ([] : List Nat).length % fcX.blocksize_ = 0 ∧
    (fcX.decryptT (fcX.encrypt [])).result = .error .authFailure :=
  ⟨by decide, rfl, rfl⟩

/-- C7: constructing a stream cipher instance with `blocksize < 1` or a
key of the wrong length fails at construction time with a configuration
error (no instance is produced, so no encrypt or decrypt operation can
start). -/
theorem construction_error (key : SodiumKey) (nonce blocksize : Nat)
    (hashkey : List Nat) (hashsize : Nat)
    (h : blocksize < 1 ∨ key.bytes.length ≠ KEYSIZE) :
    ∃ e : ConfigError,
      mkFileCryptor key nonce blocksize hashkey hashsize = .error e := by
  by_cases hk : key.bytes.length ≠ KEYSIZE
  · exact ⟨.wrongKeySize, by rw [mkFileCryptor, if_pos hk]⟩
  · have hb : blocksize < 1 := by tauto
    exact ⟨.wrongBlocksize, by rw [mkFileCryptor, if_neg hk, if_pos hb]⟩

theorem construction_error_witness :
    ∃ e : ConfigError, mkFileCryptor ⟨[], .readwrite⟩ 0 0 [] 16 = .error e :=
  construction_error ⟨[], .readwrite⟩ 0 0 [] 16 (by decide)

/-- C8: neither encrypt nor decrypt mutates the stored configuration — the
post-call instance state equals the pre-call state, field by field (the
running nonce and digest are locals; the base nonce in particular is
unchanged, so a decrypt restarted on the same instance seeds its running
nonce from the same base nonce that encrypt used). -/
theorem config_unchanged (fc : FileCryptor) (pt cs : List Nat) :
    (fc.encryptS pt).2 = fc ∧ (fc.decryptS cs).2 = fc ∧
    (fc.encryptS pt).2.nonce_ = fc.nonce_ ∧ (fc.decryptS cs).2.nonce_ = fc.nonce_ ∧
    (fc.encryptS pt).2.key_ = fc.key_ ∧ (fc.decryptS cs).2.key_ = fc.key_ ∧
    (fc.encryptS pt).2.blocksize_ = fc.blocksize_ ∧
    (fc.decryptS cs).2.header_ = fc.header_ :=
  ⟨rfl, rfl, rfl, rfl, rfl, rfl, rfl, rfl⟩

/-- C9: during decrypt no byte of the trailer region (the last `hashsize`
bytes) is folded into the recomputed digest: whenever the run reaches the
digest comparison (result ok or digest mismatch), the folded bytes are
exactly the stream bytes at positions `[0, L - hashsize)`, in order —
every read overlapping the trailer was truncated first. -/
theorem trailer_excluded_from_digest (fc : FileCryptor) (cs : List Nat)
    (hres : (∃ v, (fc.decryptT cs).result = .ok v) ∨
      (fc.decryptT cs).result = .error .hashMismatch) :
    (fc.decryptT cs).fed = cs.take (cs.length - fc.hashsize_) :=
  decryptT_fed fc cs hres

theorem trailer_excluded_from_digest_witness :
    (fcW.decryptT (fcW.encrypt [1, 2, 3, 4])).fed =
      (fcW.encrypt [1, 2, 3, 4]).take
        ((fcW.encrypt [1, 2, 3, 4]).length - fcW.hashsize_) :=
  trailer_excluded_from_digest fcW (fcW.encrypt [1, 2, 3, 4])
    (Or.inl ⟨[1, 2, 3, 4], by
      rw [decryptT_encrypt_multiple fcW [1, 2, 3, 4] (by decide) (by decide)
        (by decide) (by decide)]⟩)

/-- C10: a successful construction stores the secret key in the read-only
protection state (the constructor calls `key_.readonly()` right after its
validation), and neither encrypt nor decrypt moves the stored key out of
the read-only state. -/
theorem key_readonly (key : SodiumKey) (nonce blocksize : Nat)
    (hashkey : List Nat) (hashsize : Nat) (fc : FileCryptor)
    (h : mkFileCryptor key nonce blocksize hashkey hashsize = .ok fc)
    (pt cs : List Nat) :
    fc.key_.prot = .readonly ∧ (fc.encryptS pt).2.key_.prot = .readonly ∧
    (fc.decryptS cs).2.key_.prot = .readonly := by
  rw [mkFileCryptor] at h
  by_cases h1 : key.bytes.length ≠ KEYSIZE
  · rw [if_pos h1] at h
    simp at h
  · rw [if_neg h1] at h
    by_cases h2 : blocksize < 1
    · rw [if_pos h2] at h
      simp at h
    · rw [if_neg h2] at h
      simp only [Except.ok.injEq] at h
      subst h
      exact ⟨rfl, rfl, rfl⟩

theorem key_readonly_witness :
    fcZ.key_.prot = .readonly ∧ (fcZ.encryptS []).2.key_.prot = .readonly ∧
    (fcZ.decryptS []).2.key_.prot = .readonly :=
  key_readonly ⟨List.replicate 32 0, .readwrite⟩ 0 1 [] 16 fcZ rfl [] []

end SodiumWrapper
